import Mathlib

/-!
Verification development for the FormS physical execution layer:
the approximate-match lookup algorithm family, the range/quantile
partitioning helpers, the execution plan tree operations, and the plan
rewriter.  Python sources are embedded shallowly: pandas/numpy columns
become `List`s, per-element vectorized operations become `List.map`,
missing values (NaN) become `none`, and a fatal assertion or library
exception becomes an outer `Option` whose `none` signals the abort.
Python `//` on nonnegative numbers is `Nat` division; where an index can
go negative we compute in `Int` (Lean's `Int` division by a positive
number is floor division, matching Python).
-/

namespace Forms

/-! ### Generic list lemmas -/

theorem countP_eq_of_boundary {α : Type} (p : α → Bool) (K : List α) (m : Nat)
    (hm : m ≤ K.length)
    (h : ∀ j (hj : j < K.length), p (K.get ⟨j, hj⟩) = true ↔ j < m) :
    K.countP p = m := by
  induction K generalizing m with
  | nil => simp at hm; simp [hm]
  | cons k ks ih =>
    cases m with
    | zero =>
      have h0 : ¬ p k = true := by
        intro hp
        exact absurd ((h 0 (by simp)).mp hp) (by omega)
      have hrest : ks.countP p = 0 := by
        apply ih 0 (by omega)
        intro j hj
        constructor
        · intro hp
          exact absurd ((h (j + 1) (by simpa using Nat.succ_lt_succ hj)).mp hp) (by omega)
        · omega
      simp [List.countP_cons, h0, hrest]
    | succ m =>
      have h0 : p k = true := (h 0 (by simp)).mpr (by omega)
      have hrest : ks.countP p = m := by
        apply ih m (by simpa using hm)
        intro j hj
        have := h (j + 1) (by simpa using Nat.succ_lt_succ hj)
        simpa [Nat.succ_lt_succ_iff] using this
      simp [List.countP_cons, h0, hrest]

theorem pairwise_countP_iff {α : Type} [LinearOrder α] (K : List α) (p : α → Bool)
    (hmono : ∀ x y : α, x ≤ y → p y = true → p x = true)
    (hK : K.Pairwise (· ≤ ·)) :
    ∀ (j : Nat) (hj : j < K.length), (p (K.get ⟨j, hj⟩) = true ↔ j < K.countP p) := by
  induction K with
  | nil => intro j hj; simp at hj
  | cons k ks ih =>
    rcases List.pairwise_cons.mp hK with ⟨hk, hs⟩
    intro j hj
    by_cases hpk : p k = true
    · cases j with
      | zero => simp [List.countP_cons, hpk]
      | succ j =>
        have hjlt : j < ks.length := by simpa using Nat.succ_lt_succ_iff.mp hj
        have hih := ih hs j hjlt
        have hcnt : (k :: ks).countP p = ks.countP p + 1 := by
          simp [List.countP_cons, hpk]
        have hget : (k :: ks).get ⟨j + 1, hj⟩ = ks.get ⟨j, hjlt⟩ := rfl
        rw [hget, hcnt, hih]
        omega
    · have hall : ∀ x ∈ ks, ¬ p x = true := by
        intro x hx hp
        exact hpk (hmono k x (hk x hx) hp)
      have hzero : ks.countP p = 0 := List.countP_eq_zero.mpr hall
      cases j with
      | zero =>
        simp [List.countP_cons, hpk, hzero]
      | succ j =>
        have hjlt : j < ks.length := by simpa using Nat.succ_lt_succ_iff.mp hj
        have hget : (k :: ks).get ⟨j + 1, hj⟩ = ks.get ⟨j, hjlt⟩ := rfl
        have hf : ¬ p (ks.get ⟨j, hjlt⟩) = true := hall _ (ks.get_mem _ _)
        have hz2 : (k :: ks).countP p = 0 := by
          apply List.countP_eq_zero.mpr
          intro x hx
          rcases List.mem_cons.mp hx with he | hx2
          · subst he; exact hpk
          · exact hall x hx2
        rw [hget, hz2]
        constructor
        · intro hp; exact absurd hp hf
        · omega

theorem countP_le_split {α : Type} [LinearOrder α] (K : List α) (v : α) :
    K.countP (fun k => k ≤ v) = K.countP (fun k => k < v) + K.count v := by
  induction K with
  | nil => simp
  | cons k ks ih =>
    rcases lt_trichotomy k v with h | h | h
    · simp [List.countP_cons, List.count_cons, h, le_of_lt h, ne_of_lt h, ih]
      omega
    · subst h
      simp [List.countP_cons, List.count_cons, lt_irrefl, ih]
      omega
    · simp [List.countP_cons, List.count_cons, not_le.mpr h, not_lt.mpr (le_of_lt h),
        (ne_of_gt h), ih]

theorem foldl_set_length {α : Type} (asg : List (Nat × α)) (init : List α) :
    (asg.foldl (fun arr p => arr.set p.1 p.2) init).length = init.length := by
  induction asg generalizing init with
  | nil => rfl
  | cons a rest ih => simp [List.foldl_cons, ih, List.length_set]

theorem foldl_set_not_mem {α : Type} (asg : List (Nat × α)) (init : List α) (i : Nat)
    (h : i ∉ asg.map Prod.fst) :
    (asg.foldl (fun arr p => arr.set p.1 p.2) init)[i]? = init[i]? := by
  induction asg generalizing init with
  | nil => rfl
  | cons a rest ih =>
    simp only [List.map_cons, List.mem_cons, not_or] at h
    rw [List.foldl_cons, ih _ h.2, List.getElem?_set_ne (fun he => h.1 he.symm)]

theorem foldl_set_mem {α : Type} (asg : List (Nat × α)) (init : List α) (i : Nat) (x : α)
    (hmem : (i, x) ∈ asg) (hnd : (asg.map Prod.fst).Nodup) (hi : i < init.length) :
    (asg.foldl (fun arr p => arr.set p.1 p.2) init)[i]? = some x := by
  induction asg generalizing init with
  | nil => simp at hmem
  | cons a rest ih =>
    simp only [List.map_cons, List.nodup_cons] at hnd
    rcases List.mem_cons.mp hmem with he | hmem2
    · subst he
      rw [List.foldl_cons, foldl_set_not_mem _ _ _ hnd.1,
        List.getElem?_set_self (by simpa using hi)]
    · rw [List.foldl_cons]
      exact ih _ hmem2 hnd.2 (by simpa [List.length_set] using hi)

theorem sorted_getD_mono {α : Type} [LinearOrder α] (s : List α)
    (hs : s.Pairwise (· ≤ ·)) (i j : Nat) (hij : i ≤ j) (hj : j < s.length) (d : α) :
    s.getD i d ≤ s.getD j d := by
  rcases Nat.eq_or_lt_of_le hij with he | hlt
  · subst he; exact le_refl _
  · rw [List.getD_eq_getElem s d (by omega), List.getD_eq_getElem s d hj]
    exact List.pairwise_iff_get.mp hs ⟨i, by omega⟩ ⟨j, hj⟩ hlt

/-! ### Sorted-search primitive (np.searchsorted side="left", bisect_left)

The numpy primitive used by the batched lookup implementations is the
standard insertion-point binary search.  It is modeled by the actual loop
(not by its sorted-input specification) so that its monotonicity in the
query holds for arbitrary key columns.  The `getD` default is never
reached when `hi ≤ K.length`, which holds at every call site. -/

def bisectLeft {α : Type} [LinearOrder α] (K : List α) (v : α) (lo hi : Nat) : Nat :=
  if lo < hi then
    if K.getD ((lo + hi) / 2) v < v then bisectLeft K v ((lo + hi) / 2 + 1) hi
    else bisectLeft K v lo ((lo + hi) / 2)
  else lo
termination_by hi - lo
decreasing_by
  · omega
  · omega

theorem le_bisectLeft {α : Type} [LinearOrder α] (K : List α) (v : α) :
    ∀ n lo hi, hi - lo ≤ n → lo ≤ bisectLeft K v lo hi := by
  intro n
  induction n with
  | zero =>
    intro lo hi hn
    rw [bisectLeft, if_neg (by omega)]
  | succ n ih =>
    intro lo hi hn
    by_cases hlh : lo < hi
    · rw [bisectLeft, if_pos hlh]
      by_cases hc : K.getD ((lo + hi) / 2) v < v
      · rw [if_pos hc]
        have := ih ((lo + hi) / 2 + 1) hi (by omega)
        omega
      · rw [if_neg hc]
        exact ih lo ((lo + hi) / 2) (by omega)
    · rw [bisectLeft, if_neg hlh]

theorem bisectLeft_le {α : Type} [LinearOrder α] (K : List α) (v : α) :
    ∀ n lo hi, hi - lo ≤ n → lo ≤ hi → bisectLeft K v lo hi ≤ hi := by
  intro n
  induction n with
  | zero =>
    intro lo hi hn hlh
    rw [bisectLeft, if_neg (by omega)]
    omega
  | succ n ih =>
    intro lo hi hn hlh
    by_cases hc : lo < hi
    · rw [bisectLeft, if_pos hc]
      by_cases hb : K.getD ((lo + hi) / 2) v < v
      · rw [if_pos hb]
        exact ih ((lo + hi) / 2 + 1) hi (by omega) (by omega)
      · rw [if_neg hb]
        have := ih lo ((lo + hi) / 2) (by omega) (by omega)
        omega
    · rw [bisectLeft, if_neg hc]
      omega

theorem bisectLeft_mono {α : Type} [LinearOrder α] (K : List α) (v w : α) (hvw : v ≤ w) :
    ∀ n lo hi, hi - lo ≤ n → hi ≤ K.length →
      bisectLeft K v lo hi ≤ bisectLeft K w lo hi := by
  intro n
  induction n with
  | zero =>
    intro lo hi hn _
    rw [bisectLeft, if_neg (by omega), bisectLeft, if_neg (by omega)]
  | succ n ih =>
    intro lo hi hn hk
    by_cases hc : lo < hi
    · have hmid : (lo + hi) / 2 < K.length := by omega
      have hgetD : ∀ d : α, K.getD ((lo + hi) / 2) d = K.get ⟨(lo + hi) / 2, hmid⟩ := by
        intro d
        rw [List.getD_eq_getElem K d hmid]
        rfl
      conv_lhs => rw [bisectLeft]
      conv_rhs => rw [bisectLeft]
      rw [if_pos hc, if_pos hc]
      by_cases hv : K.getD ((lo + hi) / 2) v < v
      · have hw : K.getD ((lo + hi) / 2) w < w := by
          rw [hgetD]
          rw [hgetD] at hv
          exact lt_of_lt_of_le hv hvw
        rw [if_pos hv, if_pos hw]
        exact ih ((lo + hi) / 2 + 1) hi (by omega) hk
      · rw [if_neg hv]
        by_cases hw : K.getD ((lo + hi) / 2) w < w
        · rw [if_pos hw]
          have h1 : bisectLeft K v lo ((lo + hi) / 2) ≤ (lo + hi) / 2 :=
            bisectLeft_le K v ((lo + hi) / 2 - lo) lo ((lo + hi) / 2) (by omega) (by omega)
          have h2 : (lo + hi) / 2 + 1 ≤ bisectLeft K w ((lo + hi) / 2 + 1) hi :=
            le_bisectLeft K w (hi - ((lo + hi) / 2 + 1)) ((lo + hi) / 2 + 1) hi (by omega)
          omega
        · rw [if_neg hw]
          exact ih lo ((lo + hi) / 2) (by omega) (by omega)
    · rw [bisectLeft, if_neg hc, bisectLeft, if_neg hc]

theorem bisectLeft_boundary {α : Type} [LinearOrder α] (K : List α) (v : α)
    (hK : K.Pairwise (· ≤ ·)) :
    ∀ n lo hi, hi - lo ≤ n → hi ≤ K.length →
      (∀ j (hj : j < K.length), j < lo → K.get ⟨j, hj⟩ < v) →
      (∀ j (hj : j < K.length), hi ≤ j → ¬ K.get ⟨j, hj⟩ < v) →
      ∀ j (hj : j < K.length), (K.get ⟨j, hj⟩ < v ↔ j < bisectLeft K v lo hi) := by
  intro n
  induction n with
  | zero =>
    intro lo hi hn _ hlo hhi j hj
    rw [bisectLeft, if_neg (by omega)]
    constructor
    · intro h
      by_contra hcon
      exact hhi j hj (by omega) h
    · intro h
      exact hlo j hj h
  | succ n ih =>
    intro lo hi hn hk hlo hhi j hj
    by_cases hc : lo < hi
    · have hmid : (lo + hi) / 2 < K.length := by omega
      have hgetD : K.getD ((lo + hi) / 2) v = K.get ⟨(lo + hi) / 2, hmid⟩ := by
        rw [List.getD_eq_getElem K v hmid]
        rfl
      rw [bisectLeft, if_pos hc]
      by_cases hb : K.getD ((lo + hi) / 2) v < v
      · rw [if_pos hb]
        rw [hgetD] at hb
        apply ih ((lo + hi) / 2 + 1) hi (by omega) hk
        · intro j' hj' hlt
          rcases Nat.lt_or_ge j' lo with h1 | h1
          · exact hlo j' hj' h1
          · rcases Nat.eq_or_lt_of_le (Nat.lt_succ_iff.mp hlt) with he | hl
            · have : K.get ⟨j', hj'⟩ = K.get ⟨(lo + hi) / 2, hmid⟩ := by
                congr 1
                exact Fin.ext he
              rw [this]; exact hb
            · calc K.get ⟨j', hj'⟩ ≤ K.get ⟨(lo + hi) / 2, hmid⟩ :=
                    List.pairwise_iff_get.mp hK ⟨j', hj'⟩ ⟨(lo + hi) / 2, hmid⟩ hl
                _ < v := hb
        · exact hhi
      · rw [if_neg hb]
        rw [hgetD] at hb
        apply ih lo ((lo + hi) / 2) (by omega) (by omega) hlo
        intro j' hj' hge
        intro hcon
        rcases Nat.eq_or_lt_of_le hge with he | hl
        · apply hb
          have : K.get ⟨(lo + hi) / 2, hmid⟩ = K.get ⟨j', hj'⟩ := by
            congr 1
            exact Fin.ext he
          rw [this]; exact hcon
        · apply hb
          calc K.get ⟨(lo + hi) / 2, hmid⟩ ≤ K.get ⟨j', hj'⟩ :=
                List.pairwise_iff_get.mp hK ⟨(lo + hi) / 2, hmid⟩ ⟨j', hj'⟩ hl
            _ < v := hcon
    · rw [bisectLeft, if_neg hc]
      constructor
      · intro h
        by_contra hcon
        exact hhi j hj (by omega) h
      · intro h
        exact hlo j hj h

theorem bisectLeft_eq_countP {α : Type} [LinearOrder α] (K : List α) (v : α)
    (hK : K.Pairwise (· ≤ ·)) :
    bisectLeft K v 0 K.length = K.countP (fun k => decide (k < v)) := by
  have hb := bisectLeft_boundary K v hK K.length 0 K.length (by omega) (le_refl _)
    (by intro j hj h; omega) (by intro j hj h; omega)
  have hle : bisectLeft K v 0 K.length ≤ K.length := by
    rcases Nat.eq_zero_or_pos K.length with h0 | h0
    · rw [bisectLeft, if_neg (by omega)]; omega
    · exact bisectLeft_le K v K.length 0 K.length (by omega) (by omega)
  symm
  apply countP_eq_of_boundary _ _ _ hle
  intro j hj
  rw [decide_eq_true_eq]
  exact hb j hj

/-! ### The scalar approximate binary search (utils.py approx_binary_search)

The Python while loop keeps indices low and high with high possibly
reaching -1 via `high = mid - 1`, so they are embedded as `Int`; Python's
floor division `// 2` agrees with Lean's `Int` division for the positive
divisor 2.  The list access `arr[mid]` happens only when low ≤ mid ≤ high,
which is in range under the loop invariants proved below. -/

def absLoop (arr : List Int) (value : Int) (low high : Int) : Int :=
  if low ≤ high then
    if arr.getD ((low + high) / 2).toNat 0 < value then
      absLoop arr value ((low + high) / 2 + 1) high
    else if value < arr.getD ((low + high) / 2).toNat 0 then
      absLoop arr value low ((low + high) / 2 - 1)
    else (low + high) / 2
  else (high + low) / 2
termination_by (high + 1 - low).toNat
decreasing_by
  · omega
  · omega

/-- Embedding of `approx_binary_search(value, arr)` from utils.py.  The
`assert len(arr) > 0` aborting the evaluation is modeled by `none`. -/
def approx_binary_search (value : Int) (arr : List Int) : Option Int :=
  if arr.length > 0 then
    some (if value < arr.headD 0 then -1
          else absLoop arr value 0 ((arr.length : Int) - 1))
  else none

theorem absLoop_range (arr : List Int) (value : Int) :
    ∀ n (low high : Int), (high + 1 - low).toNat ≤ n →
      0 ≤ low → low ≤ high + 1 → high ≤ (arr.length : Int) - 1 →
      -1 ≤ absLoop arr value low high ∧
        absLoop arr value low high ≤ (arr.length : Int) - 1 := by
  intro n
  induction n with
  | zero =>
    intro low high hn h0 hle hhi
    rw [absLoop, if_neg (by omega)]
    omega
  | succ n ih =>
    intro low high hn h0 hle hhi
    by_cases hc : low ≤ high
    · rw [absLoop, if_pos hc]
      by_cases h1 : arr.getD ((low + high) / 2).toNat 0 < value
      · rw [if_pos h1]
        exact ih ((low + high) / 2 + 1) high (by omega) (by omega) (by omega) hhi
      · rw [if_neg h1]
        by_cases h2 : value < arr.getD ((low + high) / 2).toNat 0
        · rw [if_pos h2]
          exact ih low ((low + high) / 2 - 1) (by omega) h0 (by omega) (by omega)
        · rw [if_neg h2]
          omega
    · rw [absLoop, if_neg hc]
      omega

/-- Count of the keys that are at most v: for a sorted key column this is
one more than the index of the largest key ≤ v. -/
def cntLE (K : List Int) (v : Int) : Nat := K.countP (fun k => decide (k ≤ v))

theorem cntLE_le_length (K : List Int) (v : Int) : cntLE K v ≤ K.length :=
  List.countP_le_length _

theorem cntLE_mono (K : List Int) {v w : Int} (h : v ≤ w) : cntLE K v ≤ cntLE K w := by
  apply List.countP_mono_left
  intro k _ hk
  rw [decide_eq_true_eq] at hk ⊢
  omega

theorem cntLE_iff (K : List Int) (v : Int) (hK : K.Pairwise (· ≤ ·)) :
    ∀ j (hj : j < K.length), (K.get ⟨j, hj⟩ ≤ v ↔ j < cntLE K v) := by
  intro j hj
  have := pairwise_countP_iff K (fun k => decide (k ≤ v))
    (by intro x y hxy hy; rw [decide_eq_true_eq] at hy ⊢; omega) hK j hj
  rw [decide_eq_true_eq] at this
  exact this

theorem absLoop_sorted (arr : List Int) (value : Int) (hK : arr.Pairwise (· < ·)) :
    ∀ n (low high : Int), (high + 1 - low).toNat ≤ n →
      0 ≤ low → low ≤ high + 1 → high ≤ (arr.length : Int) - 1 →
      (∀ j (hj : j < arr.length), (j : Int) < low → arr.get ⟨j, hj⟩ < value) →
      (∀ j (hj : j < arr.length), high < (j : Int) → value < arr.get ⟨j, hj⟩) →
      absLoop arr value low high = (cntLE arr value : Int) - 1 := by
  have hKle : arr.Pairwise (· ≤ ·) := hK.imp (fun h => le_of_lt h)
  intro n
  induction n with
  | zero =>
    intro low high hn h0 hle hhi hlo hhigh
    rw [absLoop, if_neg (by omega)]
    have hcnt : cntLE arr value = (high + 1).toNat := by
      apply countP_eq_of_boundary _ _ _ (by omega)
      intro j hj
      rw [decide_eq_true_eq]
      constructor
      · intro h
        by_contra hcon
        have := hhigh j hj (by omega)
        omega
      · intro h
        have := hlo j hj (by omega)
        omega
    rw [hcnt]
    omega
  | succ n ih =>
    intro low high hn h0 hle hhi hlo hhigh
    by_cases hc : low ≤ high
    · have hmlo : low ≤ (low + high) / 2 := by omega
      have hmhi : (low + high) / 2 ≤ high := by omega
      have hmid : ((low + high) / 2).toNat < arr.length := by omega
      have hgetD : arr.getD ((low + high) / 2).toNat 0 =
          arr.get ⟨((low + high) / 2).toNat, hmid⟩ := by
        rw [List.getD_eq_getElem arr 0 hmid]
        rfl
      rw [absLoop, if_pos hc]
      by_cases h1 : arr.getD ((low + high) / 2).toNat 0 < value
      · rw [if_pos h1]
        rw [hgetD] at h1
        apply ih ((low + high) / 2 + 1) high (by omega) (by omega) (by omega) hhi
        · intro j hj hlt
          rcases lt_or_ge (j : Int) low with hl | hl
          · exact hlo j hj hl
          · rcases Nat.lt_or_ge j ((low + high) / 2).toNat with hjm | hjm
            · calc arr.get ⟨j, hj⟩ < arr.get ⟨((low + high) / 2).toNat, hmid⟩ :=
                    List.pairwise_iff_get.mp hK ⟨j, hj⟩ _ hjm
                _ < value := h1
            · have : j = ((low + high) / 2).toNat := by omega
              have heq : arr.get ⟨j, hj⟩ = arr.get ⟨((low + high) / 2).toNat, hmid⟩ := by
                congr 1
                exact Fin.ext this
              rw [heq]; exact h1
        · exact hhigh
      · rw [if_neg h1]
        by_cases h2 : value < arr.getD ((low + high) / 2).toNat 0
        · rw [if_pos h2]
          rw [hgetD] at h2
          apply ih low ((low + high) / 2 - 1) (by omega) h0 (by omega) (by omega) hlo
          intro j hj hgt
          rcases Nat.lt_or_ge ((low + high) / 2).toNat j with hjm | hjm
          · calc value < arr.get ⟨((low + high) / 2).toNat, hmid⟩ := h2
              _ < arr.get ⟨j, hj⟩ := List.pairwise_iff_get.mp hK _ ⟨j, hj⟩ hjm
          · have : j = ((low + high) / 2).toNat := by omega
            have heq : arr.get ⟨j, hj⟩ = arr.get ⟨((low + high) / 2).toNat, hmid⟩ := by
              congr 1
              exact Fin.ext this
            rw [heq]; exact h2
        · rw [if_neg h2]
          rw [hgetD] at h1 h2
          have heqv : arr.get ⟨((low + high) / 2).toNat, hmid⟩ = value := by omega
          have hcnt : cntLE arr value = ((low + high) / 2).toNat + 1 := by
            apply countP_eq_of_boundary _ _ _ (by omega)
            intro j hj
            rw [decide_eq_true_eq]
            constructor
            · intro h
              by_contra hcon
              have hjm : ((low + high) / 2).toNat < j := by omega
              have := List.pairwise_iff_get.mp hK ⟨((low + high) / 2).toNat, hmid⟩ ⟨j, hj⟩ hjm
              omega
            · intro h
              rcases Nat.lt_or_ge j ((low + high) / 2).toNat with hjm | hjm
              · have := List.pairwise_iff_get.mp hK ⟨j, hj⟩ ⟨((low + high) / 2).toNat, hmid⟩ hjm
                omega
              · have : j = ((low + high) / 2).toNat := by omega
                have heq : arr.get ⟨j, hj⟩ = arr.get ⟨((low + high) / 2).toNat, hmid⟩ := by
                  congr 1
                  exact Fin.ext this
                rw [heq, heqv]
          rw [hcnt]
          omega
    · rw [absLoop, if_neg hc]
      have hcnt : cntLE arr value = (high + 1).toNat := by
        apply countP_eq_of_boundary _ _ _ (by omega)
        intro j hj
        rw [decide_eq_true_eq]
        constructor
        · intro h
          by_contra hcon
          have := hhigh j hj (by omega)
          omega
        · intro h
          have := hlo j hj (by omega)
          omega
      rw [hcnt]
      omega

/-- For a strictly ascending key column, approx_binary_search returns the
index of the largest key ≤ value (-1 when the value is below the minimum),
which equals cntLE - 1. -/
theorem approx_binary_search_sorted (arr : List Int) (value : Int)
    (hK : arr.Pairwise (· < ·)) (hne : arr ≠ []) :
    approx_binary_search value arr = some ((cntLE arr value : Int) - 1) := by
  have hlen : 0 < arr.length := List.length_pos.mpr hne
  have hKle : arr.Pairwise (· ≤ ·) := hK.imp (fun h => le_of_lt h)
  rw [approx_binary_search, if_pos hlen]
  by_cases hv : value < arr.headD 0
  · rw [if_pos hv]
    have hhead : arr.headD 0 = arr.get ⟨0, hlen⟩ := by
      cases arr with
      | nil => simp at hlen
      | cons a l => rfl
    have hcnt : cntLE arr value = 0 := by
      apply countP_eq_of_boundary _ _ _ (by omega)
      intro j hj
      rw [decide_eq_true_eq]
      constructor
      · intro h
        exfalso
        rcases Nat.eq_zero_or_pos j with h0 | h0
        · subst h0
          rw [hhead] at hv
          omega
        · have := List.pairwise_iff_get.mp hK ⟨0, hlen⟩ ⟨j, hj⟩ h0
          rw [hhead] at hv
          omega
      · omega
    rw [hcnt]
    rfl
  · rw [if_neg hv]
    have hhead : arr.headD 0 = arr.get ⟨0, hlen⟩ := by
      cases arr with
      | nil => simp at hlen
      | cons a l => rfl
    congr 1
    apply absLoop_sorted arr value hK ((arr.length : Int) - 1 + 1 - 0).toNat 0
      ((arr.length : Int) - 1) (by omega) (by omega) (by omega) (by omega)
    · intro j hj hlt
      omega
    · intro j hj hgt
      omega

/-! ### Lookup implementations (lookupfuncexecutor.py, vlookup_approx.py)

Columns are embedded as lists with positional indexing (the executor passes
columns carrying the default range index, where pandas label access
coincides with positional access).  A per-row missing value (NaN) is
`none`; an implementation that can abort the formula evaluation returns an
outer `Option` whose `none` is the abort.  The vlookup_* variants are
embedded at the configuration the claims compare them on: a two-column
frame whose first column is the search column and second the result
column, with column index 2 for every row, which makes
`df.iloc[i, col_idx - 1]` the result column access. -/

/-- Embedding of lookup_binary_search: per query, scalar binary search; a
returned index of -1 keeps the preset NaN.  The assert inside
approx_binary_search aborts the whole call (outer none). -/
def lookup_binary_search (values search_range result_range : List Int) :
    Option (List (Option Int)) :=
  values.mapM (fun v =>
    (approx_binary_search v search_range).map (fun value_idx =>
      if value_idx ≠ -1 then some (result_range.getD value_idx.toNat 0) else none))

/-- Embedding of lookup_binary_search_np (and of its two-range twin
vlookup_approx_np): batched insertion points via np.searchsorted with
side="left", then a scalar correction loop; NaN where the corrected index
is -1. -/
def lookup_binary_search_np (values search_range result_range : List Int) :
    List (Option Int) :=
  values.map (fun v =>
    let ss : Nat := bisectLeft search_range v 0 search_range.length
    let value_idx : Int :=
      if ss ≥ search_range.length then (ss : Int) - 1
      else if v ≠ search_range.getD ss 0 then (ss : Int) - 1
      else (ss : Int)
    if value_idx ≠ -1 then some (result_range.getD value_idx.toNat 0) else none)

/-- Embedding of lookup_binary_search_np_vector (and of vlookup_approx_np_vector).
Each numpy operation is per-element; np.take with index -1 wraps to the
last element, but np.put then overwrites exactly those rows with NaN, so
the net per-row result at adjusted index -1 is none.  The trailing
astype(type(res[0])) reads res[0] and raises IndexError on an empty query
list; that abort is the outer none. -/
def lookup_binary_search_np_vector (values search_range result_range : List Int) :
    Option (List (Option Int)) :=
  if values.isEmpty then none
  else some (values.map (fun v =>
    let value_idx : Nat := bisectLeft search_range v 0 search_range.length
    let greater_than_length : Bool := decide (value_idx ≥ search_range.length)
    let value_idx_no_oob : Nat := min value_idx (search_range.length - 1)
    let search_range_value : Int := search_range.getD value_idx_no_oob 0
    let approximate_match : Bool := decide (v ≠ search_range_value)
    let combined : Int := if greater_than_length || approximate_match then 1 else 0
    let adjusted_idx : Int := (value_idx : Int) - combined
    if adjusted_idx = -1 then none else some (result_range.getD adjusted_idx.toNat 0)))

/-- Embedding of vlookup_approx_np_lc at the two-column frame.  NOTE: the
source guard `if value_idxes != -1` compares the whole Python list against
-1, which is always true, so the NaN branch is dead code; a corrected
index of -1 reaches df.iloc[-1, c], Python negative indexing, i.e. the
last row.  (An empty key column would raise there; the claims evaluate the
variant on nonempty key columns.) -/
def vlookup_approx_np_lc (values search_range result_range : List Int) :
    List (Option Int) :=
  values.map (fun v =>
    let ss : Nat := bisectLeft search_range v 0 search_range.length
    let value_idx : Int :=
      if ss ≥ search_range.length then (ss : Int) - 1
      else if v ≠ search_range.getD ss 0 then (ss : Int) - 1
      else (ss : Int)
    some (result_range.getD
      (if value_idx = -1 then search_range.length - 1 else value_idx.toNat) 0))

/-- Embedding of vlookup_approx_constants at the two-column frame.  NOTE:
the source bounds check is `row_idx == size`, comparing against the output
size rather than the key-column length; df.iloc with index -1 wraps to the
last row.  Accesses that would be out of range in Python (possible when
size differs from the key length, or on an empty frame) raise there; the
claims evaluate this variant only where every access is in range. -/
def vlookup_approx_constants (value : Int) (search_range result_range : List Int)
    (size : Nat) : List (Option Int) :=
  if value < search_range.headD 0 then List.replicate size none
  else
    let row_idx0 : Nat := bisectLeft search_range value 0 search_range.length
    let row_idx : Int :=
      if row_idx0 = size then (row_idx0 : Int) - 1
      else if search_range.getD row_idx0 0 ≠ value then (row_idx0 : Int) - 1
      else (row_idx0 : Int)
    let val := result_range.getD
      (if row_idx < 0 then search_range.length - 1 else row_idx.toNat) 0
    List.replicate size (some val)

/-- The specified approximate match (spec section 4.2): missing when no key
is ≤ v (equivalently, for a sorted nonempty column, when v is below the
minimum key); otherwise the result aligned with the largest key ≤ v, which
sits at index cntLE - 1. -/
def lookupSpec (search_range result_range : List Int) (v : Int) : Option Int :=
  if cntLE search_range v = 0 then none
  else some (result_range.getD (cntLE search_range v - 1) 0)

theorem cntLE_eq_zero_iff (K : List Int) (v : Int) (hK : K.Pairwise (· ≤ ·))
    (hne : K ≠ []) : cntLE K v = 0 ↔ v < K.headD 0 := by
  have hlen : 0 < K.length := List.length_pos.mpr hne
  have hhead : K.headD 0 = K.get ⟨0, hlen⟩ := by
    cases K with
    | nil => simp at hlen
    | cons a l => rfl
  rw [hhead]
  constructor
  · intro h
    by_contra hcon
    have := (cntLE_iff K v hK 0 hlen).mp (by omega)
    omega
  · intro h
    by_contra hcon
    have := (cntLE_iff K v hK 0 hlen).mpr (by omega)
    omega

theorem count_le_one_of_strict (K : List Int) (v : Int) (hK : K.Pairwise (· < ·)) :
    v ∈ K → K.count v = 1 := by
  intro hv
  have hnd : K.Nodup := hK.imp (fun h => ne_of_lt h)
  exact List.count_eq_one_of_mem hnd hv

theorem get_countP_lt_eq (K : List Int) (v : Int) (hK : K.Pairwise (· < ·))
    (hv : v ∈ K) (hlt : K.countP (fun k => decide (k < v)) < K.length) :
    K.get ⟨K.countP (fun k => decide (k < v)), hlt⟩ = v := by
  have hKle : K.Pairwise (· ≤ ·) := hK.imp (fun h => le_of_lt h)
  have hsplit := countP_le_split K v
  have hcount := count_le_one_of_strict K v hK hv
  have h1 : K.countP (fun k => decide (k < v)) < cntLE K v := by
    unfold cntLE
    rw [hsplit, hcount]
    omega
  have hle : K.get ⟨K.countP (fun k => decide (k < v)), hlt⟩ ≤ v :=
    (cntLE_iff K v hKle _ hlt).mpr h1
  have hnlt : ¬ K.get ⟨K.countP (fun k => decide (k < v)), hlt⟩ < v := by
    intro hcon
    have := (pairwise_countP_iff K (fun k => decide (k < v))
      (by intro x y hxy hy; rw [decide_eq_true_eq] at hy ⊢; omega) hKle _ hlt).mp
      (by rw [decide_eq_true_eq]; exact hcon)
    omega
  omega

/-- For a strictly ascending key column the batched searchsorted insertion
point followed by the miss/exact correction equals cntLE - 1, the index of
the largest key ≤ v (or -1). -/
theorem corrected_idx (K : List Int) (v : Int) (hK : K.Pairwise (· < ·)) :
    (if bisectLeft K v 0 K.length ≥ K.length
       then (bisectLeft K v 0 K.length : Int) - 1
     else if v ≠ K.getD (bisectLeft K v 0 K.length) 0
       then (bisectLeft K v 0 K.length : Int) - 1
     else (bisectLeft K v 0 K.length : Int)) = (cntLE K v : Int) - 1 := by
  have hKle : K.Pairwise (· ≤ ·) := hK.imp (fun h => le_of_lt h)
  have hss : bisectLeft K v 0 K.length = K.countP (fun k => decide (k < v)) :=
    bisectLeft_eq_countP K v hKle
  have hsplit := countP_le_split K v
  by_cases hv : v ∈ K
  · have hcount := count_le_one_of_strict K v hK hv
    have hcnt : cntLE K v = K.countP (fun k => decide (k < v)) + 1 := by
      unfold cntLE
      rw [hsplit, hcount]
    have hlt : K.countP (fun k => decide (k < v)) < K.length := by
      have := cntLE_le_length K v
      omega
    have hgetv := get_countP_lt_eq K v hK hv hlt
    have hgd : K.getD (bisectLeft K v 0 K.length) 0 = v := by
      rw [hss, List.getD_eq_getElem K 0 hlt]
      exact hgetv
    rw [if_neg (by omega), if_neg (by rw [hgd]; simp), hss, hcnt]
    push_cast
    ring
  · have hcount : K.count v = 0 := List.count_eq_zero_of_not_mem hv
    have hcnt : cntLE K v = K.countP (fun k => decide (k < v)) := by
      unfold cntLE
      rw [hsplit, hcount]
      omega
    by_cases hge : bisectLeft K v 0 K.length ≥ K.length
    · rw [if_pos hge, hss, hcnt]
    · rw [if_neg hge]
      have hlt : K.countP (fun k => decide (k < v)) < K.length := by omega
      have hne2 : v ≠ K.getD (bisectLeft K v 0 K.length) 0 := by
        intro hcon
        apply hv
        rw [hss, List.getD_eq_getElem K 0 hlt] at hcon
        rw [hcon]
        exact List.getElem_mem hlt
      rw [if_pos hne2, hss, hcnt]

theorem mapM_eq_some_map {α β : Type} (f : α → Option β) (g : α → β) (l : List α)
    (h : ∀ v ∈ l, f v = some (g v)) : l.mapM f = some (l.map g) := by
  induction l with
  | nil => rfl
  | cons a t ih =>
    rw [List.mapM_cons, h a (by simp), ih (fun v hv => h v (by simp [hv]))]
    rfl

/-- Case analysis of the corrected insertion point on a strictly ascending
key column: either the query hits a key exactly (the insertion point is
that key's index and cntLE is one more), or it misses (the insertion point
already equals cntLE, and the correction branch fires). -/
theorem bisect_cases (K : List Int) (v : Int) (hK : K.Pairwise (· < ·)) :
    (cntLE K v = bisectLeft K v 0 K.length + 1 ∧
      bisectLeft K v 0 K.length < K.length ∧
      K.getD (bisectLeft K v 0 K.length) 0 = v) ∨
    (cntLE K v = bisectLeft K v 0 K.length ∧
      (bisectLeft K v 0 K.length ≥ K.length ∨
        K.getD (bisectLeft K v 0 K.length) 0 ≠ v)) := by
  have hKle : K.Pairwise (· ≤ ·) := hK.imp (fun h => le_of_lt h)
  have hss : bisectLeft K v 0 K.length = K.countP (fun k => decide (k < v)) :=
    bisectLeft_eq_countP K v hKle
  have hsplit := countP_le_split K v
  by_cases hv : v ∈ K
  · left
    have hcount := count_le_one_of_strict K v hK hv
    have hcnt : cntLE K v = K.countP (fun k => decide (k < v)) + 1 := by
      unfold cntLE
      rw [hsplit, hcount]
    have hlt : K.countP (fun k => decide (k < v)) < K.length := by
      have := cntLE_le_length K v
      omega
    refine ⟨by rw [hcnt, hss], by omega, ?_⟩
    rw [hss, List.getD_eq_getElem K 0 hlt]
    exact get_countP_lt_eq K v hK hv hlt
  · right
    have hcount : K.count v = 0 := List.count_eq_zero_of_not_mem hv
    have hcnt : cntLE K v = K.countP (fun k => decide (k < v)) := by
      unfold cntLE
      rw [hsplit, hcount]
      omega
    refine ⟨by rw [hcnt, hss], ?_⟩
    by_cases hge : bisectLeft K v 0 K.length ≥ K.length
    · exact Or.inl hge
    · right
      intro hcon
      apply hv
      have hlt : K.countP (fun k => decide (k < v)) < K.length := by omega
      rw [hss, List.getD_eq_getElem K 0 hlt] at hcon
      rw [← hcon]
      exact List.getElem_mem hlt

theorem lookup_binary_search_eq_spec (vs K R : List Int)
    (hK : K.Pairwise (· < ·)) (hne : K ≠ []) :
    lookup_binary_search vs K R = some (vs.map (lookupSpec K R)) := by
  apply mapM_eq_some_map
  intro v _
  rw [approx_binary_search_sorted K v hK hne]
  simp only [Option.map_some']
  congr 1
  unfold lookupSpec
  by_cases h0 : cntLE K v = 0
  · rw [h0, if_pos rfl, if_neg (by norm_num)]
  · rw [if_neg h0, if_pos (by omega)]
    congr 2
    omega

theorem lookup_binary_search_np_eq_spec (vs K R : List Int)
    (hK : K.Pairwise (· < ·)) :
    lookup_binary_search_np vs K R = vs.map (lookupSpec K R) := by
  unfold lookup_binary_search_np
  apply List.map_congr_left
  intro v _
  dsimp only
  have hcorr := corrected_idx K v hK
  rw [hcorr]
  unfold lookupSpec
  by_cases h0 : cntLE K v = 0
  · rw [h0, if_pos rfl, if_neg (by norm_num)]
  · rw [if_neg h0, if_pos (by omega)]
    congr 2
    omega

theorem lookup_binary_search_np_vector_eq_spec (vs K R : List Int)
    (hK : K.Pairwise (· < ·)) (hvs : vs ≠ []) :
    lookup_binary_search_np_vector vs K R = some (vs.map (lookupSpec K R)) := by
  unfold lookup_binary_search_np_vector
  rw [if_neg (by simpa using hvs)]
  congr 1
  apply List.map_congr_left
  intro v _
  dsimp only
  have hadj : ((bisectLeft K v 0 K.length : Int) -
      (if (decide (bisectLeft K v 0 K.length ≥ K.length) ||
            decide (v ≠ K.getD (min (bisectLeft K v 0 K.length) (K.length - 1)) 0))
        then 1 else 0)) = (cntLE K v : Int) - 1 := by
    rcases bisect_cases K v hK with ⟨hcnt, hlt, hgd⟩ | ⟨hcnt, hmiss⟩
    · have hmin : min (bisectLeft K v 0 K.length) (K.length - 1) =
          bisectLeft K v 0 K.length := by omega
      rw [hmin, hgd]
      rw [if_neg (by
        simp only [Bool.or_eq_true, decide_eq_true_eq, ge_iff_le]
        push_neg
        exact ⟨by omega, rfl⟩)]
      omega
    · have h1 : (decide (bisectLeft K v 0 K.length ≥ K.length) ||
          decide (v ≠ K.getD (min (bisectLeft K v 0 K.length) (K.length - 1)) 0)) =
          true := by
        simp only [Bool.or_eq_true, decide_eq_true_eq]
        rcases hmiss with hge | hne2
        · exact Or.inl hge
        · by_cases hge2 : bisectLeft K v 0 K.length ≥ K.length
          · exact Or.inl hge2
          · have hmin : min (bisectLeft K v 0 K.length) (K.length - 1) =
                bisectLeft K v 0 K.length := by omega
            rw [hmin]
            exact Or.inr (fun h => hne2 h.symm)
      rw [h1, if_pos rfl]
      omega
  rw [hadj]
  unfold lookupSpec
  by_cases h0 : cntLE K v = 0
  · rw [h0, if_pos (by omega), if_pos rfl]
  · rw [if_neg (by omega), if_neg h0]
    congr 2
    omega

theorem vlookup_approx_np_lc_eq_spec (vs K R : List Int)
    (hK : K.Pairwise (· < ·)) (hne : K ≠ [])
    (hmiss : ∀ v ∈ vs, K.headD 0 ≤ v) :
    vlookup_approx_np_lc vs K R = vs.map (lookupSpec K R) := by
  have hKle : K.Pairwise (· ≤ ·) := hK.imp (fun h => le_of_lt h)
  unfold vlookup_approx_np_lc
  apply List.map_congr_left
  intro v hv
  dsimp only
  have hcorr := corrected_idx K v hK
  rw [hcorr]
  have h0 : cntLE K v ≠ 0 := by
    intro hcon
    have := (cntLE_eq_zero_iff K v hKle hne).mp hcon
    have := hmiss v hv
    omega
  rw [if_neg (by omega)]
  unfold lookupSpec
  rw [if_neg h0]
  congr 2
  omega

theorem vlookup_approx_constants_eq_spec (v : Int) (K R : List Int)
    (hK : K.Pairwise (· < ·)) (hne : K ≠ []) :
    vlookup_approx_constants v K R K.length =
      List.replicate K.length (lookupSpec K R v) := by
  have hKle : K.Pairwise (· ≤ ·) := hK.imp (fun h => le_of_lt h)
  unfold vlookup_approx_constants
  by_cases hlow : v < K.headD 0
  · rw [if_pos hlow]
    unfold lookupSpec
    rw [if_pos ((cntLE_eq_zero_iff K v hKle hne).mpr hlow)]
  · rw [if_neg hlow]
    dsimp only
    have h0 : cntLE K v ≠ 0 := by
      intro hcon
      exact hlow ((cntLE_eq_zero_iff K v hKle hne).mp hcon)
    have hrow : (if bisectLeft K v 0 K.length = K.length
        then (bisectLeft K v 0 K.length : Int) - 1
        else if K.getD (bisectLeft K v 0 K.length) 0 ≠ v
        then (bisectLeft K v 0 K.length : Int) - 1
        else (bisectLeft K v 0 K.length : Int)) = (cntLE K v : Int) - 1 := by
      rcases bisect_cases K v hK with ⟨hcnt, hlt, hgd⟩ | ⟨hcnt, hmiss⟩
      · rw [if_neg (by omega), if_neg (by rw [hgd]; simp)]
        omega
      · rcases hmiss with hge | hne2
        · have hble : bisectLeft K v 0 K.length ≤ K.length := by
            rcases Nat.eq_zero_or_pos K.length with hl0 | hl0
            · rw [bisectLeft, if_neg (by omega)]; omega
            · exact bisectLeft_le K v K.length 0 K.length (by omega) (by omega)
          rw [if_pos (by omega)]
          omega
        · by_cases heq : bisectLeft K v 0 K.length = K.length
          · rw [if_pos heq]
            omega
          · rw [if_neg heq, if_pos hne2]
            omega
    rw [hrow, if_neg (by omega)]
    unfold lookupSpec
    rw [if_neg h0]
    congr 3
    omega

/-! ### Sort-merge lookup (lookup_sort_merge)

Embedding of the two-pointer merge.  The queries are paired with their
original positions (Python enumerate) and sorted by value (list.sort with
a key is a stable sort; stability fixes the order of equal values, and the
written results do not depend on it).  Each outer iteration advances the
right pointer past the keys ≤ the current value, takes the next key (or
np.infty past the end, modeled by `none`) as stop value, and the inner
loop consumes the run of queries below the stop value, writing
result_range[right-1] (or leaving the NaN preset when right = 0) at each
query's original position. -/

def ltStop (v : Int) : Option Int → Bool
  | none => true
  | some s => decide (v < s)

def smAdvance (K : List Int) (v : Int) (right : Nat) : Nat :=
  if right < K.length ∧ K.getD right 0 ≤ v then smAdvance K v (right + 1) else right
termination_by K.length - right
decreasing_by
  omega

def smInner (R : List Int) (stop : Option Int) (right : Nat) :
    List (Nat × Int) → List (Nat × Option Int) × List (Nat × Int)
  | [] => ([], [])
  | (i, v) :: rest =>
    if ltStop v stop then
      ((i, if right = 0 then none else some (R.getD (right - 1) 0)) ::
        (smInner R stop right rest).1, (smInner R stop right rest).2)
    else ([], (i, v) :: rest)

theorem smInner_eq (R : List Int) (stop : Option Int) (right : Nat) :
    ∀ l : List (Nat × Int), smInner R stop right l =
      ((l.takeWhile (fun p => ltStop p.2 stop)).map
          (fun p => (p.1, if right = 0 then none else some (R.getD (right - 1) 0))),
        l.dropWhile (fun p => ltStop p.2 stop)) := by
  intro l
  induction l with
  | nil => rfl
  | cons a rest ih =>
    rcases a with ⟨i, v⟩
    by_cases h : ltStop v stop
    · rw [smInner, if_pos h, ih,
        List.takeWhile_cons_of_pos (p := fun q : Nat × Int => ltStop q.2 stop) h,
        List.dropWhile_cons_of_pos (p := fun q : Nat × Int => ltStop q.2 stop) h]
      rfl
    · rw [smInner, if_neg h,
        List.takeWhile_cons_of_neg (p := fun q : Nat × Int => ltStop q.2 stop)
          (by simpa using h),
        List.dropWhile_cons_of_neg (p := fun q : Nat × Int => ltStop q.2 stop)
          (by simpa using h)]
      rfl

theorem smAdvance_not_guard (K : List Int) (v : Int) :
    ∀ n right, K.length - right ≤ n →
      ¬(smAdvance K v right < K.length ∧ K.getD (smAdvance K v right) 0 ≤ v) := by
  intro n
  induction n with
  | zero =>
    intro right hn
    rw [smAdvance, if_neg (by omega)]
    omega
  | succ n ih =>
    intro right hn
    by_cases h : right < K.length ∧ K.getD right 0 ≤ v
    · rw [smAdvance, if_pos h]
      exact ih (right + 1) (by omega)
    · rw [smAdvance, if_neg h]
      exact h

theorem smAdvance_ge (K : List Int) (v : Int) :
    ∀ n right, K.length - right ≤ n → right ≤ smAdvance K v right := by
  intro n
  induction n with
  | zero =>
    intro right hn
    rw [smAdvance, if_neg (by omega)]
  | succ n ih =>
    intro right hn
    by_cases h : right < K.length ∧ K.getD right 0 ≤ v
    · rw [smAdvance, if_pos h]
      have := ih (right + 1) (by omega)
      omega
    · rw [smAdvance, if_neg h]

theorem ltStop_advance (K : List Int) (v : Int) (right : Nat) :
    ltStop v K[smAdvance K v right]? = true := by
  have hng := smAdvance_not_guard K v (K.length - right) right (by omega)
  cases hks : K[smAdvance K v right]? with
  | none => rfl
  | some s =>
    have hlt : smAdvance K v right < K.length := by
      by_contra hcon
      rw [List.getElem?_eq_none (by omega)] at hks
      exact Option.noConfusion hks
    have hval : K.getD (smAdvance K v right) 0 = s := by
      rw [List.getD_eq_getElem K 0 hlt]
      have := List.getElem?_eq_getElem hlt
      rw [this] at hks
      exact Option.some.inj hks
    unfold ltStop
    rw [decide_eq_true_eq]
    by_contra hcon
    exact hng ⟨hlt, by omega⟩

theorem smAdvance_eq_cntLE (K : List Int) (v : Int) (hK : K.Pairwise (· ≤ ·)) :
    ∀ n right, K.length - right ≤ n → right ≤ cntLE K v →
      smAdvance K v right = cntLE K v := by
  intro n
  induction n with
  | zero =>
    intro right hn hr
    have := cntLE_le_length K v
    rw [smAdvance, if_neg (by omega)]
    omega
  | succ n ih =>
    intro right hn hr
    rcases Nat.lt_or_ge right (cntLE K v) with hlt | hge
    · have hrlen : right < K.length := by
        have := cntLE_le_length K v
        omega
      have hle : K.getD right 0 ≤ v := by
        rw [List.getD_eq_getElem K 0 hrlen]
        exact (cntLE_iff K v hK right hrlen).mpr hlt
      rw [smAdvance, if_pos ⟨hrlen, hle⟩]
      exact ih (right + 1) (by omega) (by omega)
    · have hreq : right = cntLE K v := by omega
      rw [smAdvance, if_neg ?_]
      · exact hreq
      · intro hcon
        have := (cntLE_iff K v hK right hcon.1).mp (by
          rw [List.get_eq_getElem, ← List.getD_eq_getElem K 0 hcon.1]
          exact hcon.2)
        omega

def smOuter (K R : List Int) : Nat → List (Nat × Int) → List (Nat × Option Int)
  | _, [] => []
  | right, (i, v) :: rest =>
    (smInner R K[smAdvance K v right]? (smAdvance K v right) ((i, v) :: rest)).1 ++
      smOuter K R (smAdvance K v right)
        (smInner R K[smAdvance K v right]? (smAdvance K v right) ((i, v) :: rest)).2
termination_by _ l => l.length
decreasing_by
  rw [smInner_eq]
  have hstop := ltStop_advance K v right
  rw [List.dropWhile_cons_of_pos
    (p := fun q : Nat × Int => ltStop q.2 K[smAdvance K v right]?) hstop]
  have := (List.dropWhile_sublist
    (fun p : Nat × Int => ltStop p.2 K[smAdvance K v right]?) (l := rest)).length_le
  simp only [List.length_cons]
  omega

/-- Embedding of lookup_sort_merge from lookupfuncexecutor.py. -/
def lookup_sort_merge (values search_range result_range : List Int) :
    List (Option Int) :=
  (smOuter search_range result_range 0
      (List.insertionSort (fun a b => a.2 ≤ b.2) values.enum)).foldl
    (fun arr p => arr.set p.1 p.2) (List.replicate values.length none)

instance : IsTotal (Nat × Int) (fun a b => a.2 ≤ b.2) :=
  ⟨fun a b => le_total a.2 b.2⟩

instance : IsTrans (Nat × Int) (fun a b => a.2 ≤ b.2) :=
  ⟨fun _ _ _ hab hbc => le_trans hab hbc⟩

theorem dropWhile_head_not {α : Type} (p : α → Bool) :
    ∀ (l : List α) (q : α) (tail : List α), l.dropWhile p = q :: tail → p q = false := by
  intro l
  induction l with
  | nil =>
    intro q tail h
    simp at h
  | cons a t ih =>
    intro q tail h
    by_cases ha : p a = true
    · rw [List.dropWhile_cons_of_pos ha] at h
      exact ih q tail h
    · rw [List.dropWhile_cons_of_neg (by simpa using ha)] at h
      injection h with h1 h2
      subst h1
      simpa using ha

theorem smOuter_eq_map (K R : List Int) (hK : K.Pairwise (· ≤ ·)) :
    ∀ n (pairs : List (Nat × Int)) (right : Nat), pairs.length ≤ n →
      pairs.Pairwise (fun a b => a.2 ≤ b.2) →
      (∀ p ∈ pairs, right ≤ cntLE K p.2) →
      smOuter K R right pairs = pairs.map (fun p => (p.1, lookupSpec K R p.2)) := by
  intro n
  induction n with
  | zero =>
    intro pairs right hn _ _
    have hnil : pairs = [] := List.length_eq_zero.mp (by omega)
    subst hnil
    rw [smOuter]
    rfl
  | succ n ih =>
    intro pairs right hn hsorted hcond
    cases pairs with
    | nil =>
      rw [smOuter]
      rfl
    | cons hd rest =>
      rcases hd with ⟨i, v⟩
      have hr2 : smAdvance K v right = cntLE K v :=
        smAdvance_eq_cntLE K v hK (K.length - right) right (by omega)
          (hcond (i, v) (by simp))
      have hhd : ltStop v K[smAdvance K v right]? = true := ltStop_advance K v right
      rw [smOuter, smInner_eq, hr2]
      rw [hr2] at hhd
      have hrest_sorted : rest.Pairwise (fun a b => a.2 ≤ b.2) :=
        (List.pairwise_cons.mp hsorted).2
      have hhead_le : ∀ p ∈ rest, v ≤ p.2 :=
        fun p hp => (List.pairwise_cons.mp hsorted).1 p hp
      -- every query consumed by the inner loop has the same key count as v
      have hconsumed : ∀ p ∈ ((i, v) :: rest).takeWhile
          (fun q : Nat × Int => ltStop q.2 K[cntLE K v]?),
          cntLE K p.2 = cntLE K v := by
        intro p hp
        have hmem : p ∈ (i, v) :: rest :=
          (List.takeWhile_sublist _).subset hp
        have hpred : ltStop p.2 K[cntLE K v]? = true :=
          List.mem_takeWhile_imp (p := fun q : Nat × Int => ltStop q.2 K[cntLE K v]?) hp
        have hge : cntLE K v ≤ cntLE K p.2 := by
          rcases List.mem_cons.mp hmem with he | hm
          · rw [he]
          · exact cntLE_mono K (hhead_le p hm)
        have hle : cntLE K p.2 ≤ cntLE K v := by
          cases hks : K[cntLE K v]? with
          | none =>
            have : K.length ≤ cntLE K v := by
              by_contra hcon
              rw [List.getElem?_eq_getElem (by omega)] at hks
              exact Option.noConfusion hks
            have := cntLE_le_length K p.2
            omega
          | some s =>
            rw [hks] at hpred
            have hlt : p.2 < s := by
              unfold ltStop at hpred
              rw [decide_eq_true_eq] at hpred
              exact hpred
            rcases List.getElem?_eq_some.mp hks with ⟨hcl, hsval⟩
            by_contra hcon
            have := (cntLE_iff K p.2 hK (cntLE K v) hcl).mpr (by omega)
            rw [List.get_eq_getElem, hsval] at this
            omega
        omega
      -- every query left for the recursive call has key count ≥ cntLE v
      have hremaining : ∀ p ∈ rest.dropWhile
          (fun p => ltStop p.2 K[cntLE K v]?), cntLE K v ≤ cntLE K p.2 := by
        cases hD : rest.dropWhile (fun p => ltStop p.2 K[cntLE K v]?) with
        | nil =>
          intro p hp
          simp at hp
        | cons q tail =>
          intro p hp
          have hqpred : ltStop q.2 K[cntLE K v]? = false :=
            dropWhile_head_not _ rest q tail hD
          cases hks : K[cntLE K v]? with
          | none =>
            rw [hks] at hqpred
            simp [ltStop] at hqpred
          | some s =>
            rw [hks] at hqpred
            have hsq : s ≤ q.2 := by
              unfold ltStop at hqpred
              rw [decide_eq_false_iff_not] at hqpred
              omega
            rcases List.getElem?_eq_some.mp hks with ⟨hcl, hsval⟩
            have hcntq : cntLE K v < cntLE K q.2 := by
              have := (cntLE_iff K q.2 hK (cntLE K v) hcl).mp (by
                rw [List.get_eq_getElem, hsval]
                omega)
              omega
            have hqp : q.2 ≤ p.2 := by
              have hDsorted : (q :: tail).Pairwise (fun a b => a.2 ≤ b.2) := by
                rw [← hD]
                exact List.Pairwise.sublist (List.dropWhile_sublist _) hrest_sorted
              rcases List.mem_cons.mp hp with he | hm
              · rw [he]
              · exact List.rel_of_pairwise_cons hDsorted hm
            have := cntLE_mono K hqp
            omega
      -- assemble: head, consumed run, recursive remainder
      dsimp only
      rw [List.takeWhile_cons_of_pos (p := fun q : Nat × Int => ltStop q.2 K[cntLE K v]?) hhd,
        List.dropWhile_cons_of_pos (p := fun q : Nat × Int => ltStop q.2 K[cntLE K v]?) hhd]
      have hlen : (rest.dropWhile (fun p => ltStop p.2 K[cntLE K v]?)).length ≤ n := by
        have := (List.dropWhile_sublist
          (fun p : Nat × Int => ltStop p.2 K[cntLE K v]?) (l := rest)).length_le
        simp only [List.length_cons] at hn
        omega
      have hrec := ih (rest.dropWhile (fun p => ltStop p.2 K[cntLE K v]?)) (cntLE K v)
        hlen (List.Pairwise.sublist (List.dropWhile_sublist _) hrest_sorted) hremaining
      rw [List.map_cons, hrec]
      have htake : (rest.takeWhile (fun p => ltStop p.2 K[cntLE K v]?)).map
          (fun p => (p.1, if cntLE K v = 0 then none
            else some (R.getD (cntLE K v - 1) 0))) =
          (rest.takeWhile (fun p => ltStop p.2 K[cntLE K v]?)).map
            (fun p => (p.1, lookupSpec K R p.2)) := by
        apply List.map_congr_left
        intro p hp
        have hpc : cntLE K p.2 = cntLE K v := by
          apply hconsumed
          rw [List.takeWhile_cons_of_pos
            (p := fun q : Nat × Int => ltStop q.2 K[cntLE K v]?) hhd]
          exact List.mem_cons_of_mem _ hp
        unfold lookupSpec
        rw [hpc]
      rw [htake]
      have hhead : ((i, v) : Nat × Int).1 = i := rfl
      show (i, if cntLE K v = 0 then none else some (R.getD (cntLE K v - 1) 0)) ::
          ((rest.takeWhile (fun p => ltStop p.2 K[cntLE K v]?)).map
            (fun p => (p.1, lookupSpec K R p.2)) ++
          (rest.dropWhile (fun p => ltStop p.2 K[cntLE K v]?)).map
            (fun p => (p.1, lookupSpec K R p.2))) =
        (i, lookupSpec K R v) :: rest.map (fun p => (p.1, lookupSpec K R p.2))
      rw [← List.map_append, List.takeWhile_append_dropWhile]
      rfl

theorem enum_pairwise_fst_lt {α : Type} (l : List α) :
    l.enum.Pairwise (fun a b => a.1 < b.1) := by
  apply List.pairwise_iff_get.mpr
  intro i j hij
  rw [List.get_eq_getElem, List.get_eq_getElem,
    List.getElem_enum, List.getElem_enum]
  simpa using hij

theorem enum_mem_pair {α : Type} (l : List α) (j : Nat) (hj : j < l.length) :
    (j, l[j]) ∈ l.enum := by
  have hjl : j < l.enum.length := by
    rw [List.enum_length]
    exact hj
  have := List.getElem_enum l j hjl
  rw [← this]
  exact List.getElem_mem hjl

theorem lookup_sort_merge_eq_spec (vs K R : List Int) (hK : K.Pairwise (· ≤ ·)) :
    lookup_sort_merge vs K R = vs.map (lookupSpec K R) := by
  unfold lookup_sort_merge
  have hsorted : (List.insertionSort (fun a b : Nat × Int => a.2 ≤ b.2) vs.enum).Pairwise
      (fun a b => a.2 ≤ b.2) :=
    List.sorted_insertionSort _ _
  have hperm : (List.insertionSort (fun a b : Nat × Int => a.2 ≤ b.2) vs.enum).Perm
      vs.enum :=
    List.perm_insertionSort _ _
  rw [smOuter_eq_map K R hK
    (List.insertionSort (fun a b : Nat × Int => a.2 ≤ b.2) vs.enum).length
    (List.insertionSort (fun a b : Nat × Int => a.2 ≤ b.2) vs.enum) 0 (le_refl _)
    hsorted (by intro p _; omega)]
  have hpermmap : ((List.insertionSort (fun a b : Nat × Int => a.2 ≤ b.2) vs.enum).map
      (fun p => (p.1, lookupSpec K R p.2))).Perm
      (vs.enum.map (fun p => (p.1, lookupSpec K R p.2))) := hperm.map _
  have hnodup : (((List.insertionSort (fun a b : Nat × Int => a.2 ≤ b.2) vs.enum).map
      (fun p => (p.1, lookupSpec K R p.2))).map Prod.fst).Nodup := by
    rw [List.map_map]
    have h1 : ((List.insertionSort (fun a b : Nat × Int => a.2 ≤ b.2) vs.enum).map
        (Prod.fst ∘ fun p => (p.1, lookupSpec K R p.2))).Perm
        (vs.enum.map (Prod.fst ∘ fun p => (p.1, lookupSpec K R p.2))) := hperm.map _
    apply h1.symm.nodup
    have : (Prod.fst ∘ fun p : Nat × Int => (p.1, lookupSpec K R p.2)) = Prod.fst := rfl
    rw [this, List.enum_map_fst]
    exact List.nodup_range _
  apply List.ext_getElem?
  intro j
  rcases Nat.lt_or_ge j vs.length with hj | hj
  · have hmemenum : ((j, vs[j]) : Nat × Int) ∈ vs.enum := enum_mem_pair vs j hj
    have hmemmap : ((j, lookupSpec K R vs[j]) : Nat × Option Int) ∈
        vs.enum.map (fun p => (p.1, lookupSpec K R p.2)) :=
      List.mem_map_of_mem _ hmemenum
    have hmem : ((j, lookupSpec K R vs[j]) : Nat × Option Int) ∈
        (List.insertionSort (fun a b : Nat × Int => a.2 ≤ b.2) vs.enum).map
          (fun p => (p.1, lookupSpec K R p.2)) :=
      hpermmap.mem_iff.mpr hmemmap
    rw [foldl_set_mem _ _ _ _ hmem hnodup (by simpa using hj)]
    rw [List.getElem?_map, List.getElem?_eq_getElem hj]
    rfl
  · have h1 : (((List.insertionSort (fun a b : Nat × Int => a.2 ≤ b.2) vs.enum).map
        (fun p => (p.1, lookupSpec K R p.2))).foldl
        (fun arr p => arr.set p.1 p.2) (List.replicate vs.length none)).length =
        vs.length := by
      rw [foldl_set_length]
      simp
    rw [List.getElem?_eq_none (by omega), List.getElem?_eq_none (by simpa using hj)]

/-- The row matched by pandas merge_asof with the default backward
direction (the join primitive used by vlookup_approx_pd_merge, a library
primitive modeled from its documented semantics): the last right row whose
key is ≤ the left value, a NaN row when there is none; both inputs must be
sorted for the call to succeed. -/
def mergeAsofRow (search_range result_range : List Int) (v : Int) : Option Int :=
  if 0 < cntLE search_range v then
    some (result_range.getD (cntLE search_range v - 1) 0)
  else none

/-- Embedding of vlookup_approx_pd_merge at the two-column frame: sort the
queries by value keeping the original index (sort_values), asof-join
against the numerically coerced key column, restore the original row order
(sort_index on the kept original index), and select the result column
(column index 2 selects the merged frame's second column). -/
def vlookup_approx_pd_merge (values search_range result_range : List Int) :
    List (Option Int) :=
  ((List.insertionSort (fun a b : Nat × Option Int => a.1 ≤ b.1)
      ((List.insertionSort (fun a b : Nat × Int => a.2 ≤ b.2) values.enum).map
        (fun p => (p.1, mergeAsofRow search_range result_range p.2)))).map Prod.snd)

instance : IsTotal (Nat × Option Int) (fun a b => a.1 ≤ b.1) :=
  ⟨fun a b => le_total a.1 b.1⟩

instance : IsTrans (Nat × Option Int) (fun a b => a.1 ≤ b.1) :=
  ⟨fun _ _ _ hab hbc => le_trans hab hbc⟩

instance : IsAntisymm (Nat × Option Int) (fun a b => a.1 < b.1) :=
  ⟨fun a b hab hba => absurd (lt_trans hab hba) (lt_irrefl _)⟩

theorem mergeAsofRow_eq_spec (K R : List Int) (v : Int) :
    mergeAsofRow K R v = lookupSpec K R v := by
  unfold mergeAsofRow lookupSpec
  by_cases h : cntLE K v = 0
  · rw [if_neg (by omega), if_pos h]
  · rw [if_pos (by omega), if_neg h]

theorem vlookup_approx_pd_merge_eq_spec (vs K R : List Int)
    (hK : K.Pairwise (· ≤ ·)) :
    vlookup_approx_pd_merge vs K R = vs.map (lookupSpec K R) := by
  unfold vlookup_approx_pd_merge
  have hperm1 : (List.insertionSort (fun a b : Nat × Int => a.2 ≤ b.2) vs.enum).Perm
      vs.enum :=
    List.perm_insertionSort _ _
  have hpermmap : ((List.insertionSort (fun a b : Nat × Int => a.2 ≤ b.2) vs.enum).map
      (fun p => (p.1, mergeAsofRow K R p.2))).Perm
      (vs.enum.map (fun p => (p.1, mergeAsofRow K R p.2))) := hperm1.map _
  have hperm2 : (List.insertionSort (fun a b : Nat × Option Int => a.1 ≤ b.1)
      ((List.insertionSort (fun a b : Nat × Int => a.2 ≤ b.2) vs.enum).map
        (fun p => (p.1, mergeAsofRow K R p.2)))).Perm
      (vs.enum.map (fun p => (p.1, mergeAsofRow K R p.2))) :=
    (List.perm_insertionSort _ _).trans hpermmap
  have hnodup : ((vs.enum.map (fun p : Nat × Int => (p.1, mergeAsofRow K R p.2))).map
      Prod.fst).Nodup := by
    rw [List.map_map]
    have : (Prod.fst ∘ fun p : Nat × Int => (p.1, mergeAsofRow K R p.2)) = Prod.fst := rfl
    rw [this, List.enum_map_fst]
    exact List.nodup_range _
  have hrestored : List.insertionSort (fun a b : Nat × Option Int => a.1 ≤ b.1)
      ((List.insertionSort (fun a b : Nat × Int => a.2 ≤ b.2) vs.enum).map
        (fun p => (p.1, mergeAsofRow K R p.2))) =
      vs.enum.map (fun p => (p.1, mergeAsofRow K R p.2)) := by
    apply List.eq_of_perm_of_sorted (r := fun a b : Nat × Option Int => a.1 < b.1) hperm2
    · -- the re-sorted list is sorted non-strictly by index and its indexes
      -- are pairwise distinct, hence strictly sorted
      have hs1 : (List.insertionSort (fun a b : Nat × Option Int => a.1 ≤ b.1)
          ((List.insertionSort (fun a b : Nat × Int => a.2 ≤ b.2) vs.enum).map
            (fun p => (p.1, mergeAsofRow K R p.2)))).Pairwise
          (fun a b => a.1 ≤ b.1) :=
        List.sorted_insertionSort _ _
      have hs2 : (List.insertionSort (fun a b : Nat × Option Int => a.1 ≤ b.1)
          ((List.insertionSort (fun a b : Nat × Int => a.2 ≤ b.2) vs.enum).map
            (fun p => (p.1, mergeAsofRow K R p.2)))).Pairwise
          (fun a b => a.1 ≠ b.1) := by
        have hnd : ((List.insertionSort (fun a b : Nat × Option Int => a.1 ≤ b.1)
            ((List.insertionSort (fun a b : Nat × Int => a.2 ≤ b.2) vs.enum).map
              (fun p => (p.1, mergeAsofRow K R p.2)))).map Prod.fst).Nodup :=
          (hperm2.map Prod.fst).symm.nodup hnodup
        exact List.pairwise_map.mp hnd
      exact (hs1.and hs2).imp (fun h => lt_of_le_of_ne h.1 h.2)
    · apply List.pairwise_map.mpr
      exact (enum_pairwise_fst_lt vs).imp (fun h => h)
  rw [hrestored, List.map_map]
  have hcomp : (Prod.snd ∘ fun p : Nat × Int => (p.1, mergeAsofRow K R p.2)) =
      ((fun v => mergeAsofRow K R v) ∘ Prod.snd) := rfl
  rw [hcomp, ← List.map_map, List.enum_map_snd]
  apply List.map_congr_left
  intro v _
  exact mergeAsofRow_eq_spec K R v

/-! ### Partitioning (utils.py get_df_bins and get_value_bins)

The key column is the first column of the frame.  Pandas Series label
access with the default range index is positional; a negative label
(reachable when a chunk boundary lands before row 0) raises KeyError,
modeled by none from seriesGet. -/

/-- Pandas Series element access under the default range index. -/
def seriesGet (keys : List Int) (i : Int) : Option Int :=
  if h : 0 ≤ i ∧ i.toNat < keys.length then some (keys.get ⟨i.toNat, h.2⟩) else none

/-- Embedding of get_df_bins: per core i the end index is
((i+1)*rowCount) // numCores; the collected boundary row indices are
[0] ++ [end - 1 for each core] and the boundary key values (all but the
last) are the keys at those end - 1 positions. -/
def get_df_bins (keys : List Int) (num_cores : Nat) : List (Option Int) × List Int :=
  (((List.range num_cores).map (fun i =>
      seriesGet keys ((((i + 1) * keys.length) / num_cores : Nat) - (1 : Int)))).dropLast,
    0 :: (List.range num_cores).map
      (fun i => ((((i + 1) * keys.length) / num_cores : Nat) - (1 : Int))))

theorem get_df_bins_idx_len (keys : List Int) (c : Nat) :
    (get_df_bins keys c).2.length = c + 1 := by
  simp [get_df_bins]

theorem div_succ_lt (r c i : Nat) (hc : 0 < c) (hrc : c ≤ r) :
    ((i + 1) * r) / c < ((i + 2) * r) / c := by
  have h1 : (i + 2) * r = (i + 1) * r + r := by ring
  rw [h1]
  have h2 : ((i + 1) * r + c) / c = ((i + 1) * r) / c + 1 := Nat.add_div_right _ hc
  have h3 : ((i + 1) * r + c) / c ≤ ((i + 1) * r + r) / c :=
    Nat.div_le_div_right (by omega)
  omega

/-- Amended boundary-index property of get_df_bins: the returned index
list is 0 followed by numCores entries ((i+1)*rowCount)//numCores - 1;
when rowCount ≥ numCores ≥ 1 those entries are strictly increasing, every
index lies in [0, rowCount-1], and the final entry is rowCount - 1. -/
theorem get_df_bins_idx_sound (keys : List Int) (c : Nat) (hc : 1 ≤ c)
    (hrc : c ≤ keys.length) :
    (get_df_bins keys c).2 = 0 :: (List.range c).map
        (fun i => ((((i + 1) * keys.length) / c : Nat) - (1 : Int))) ∧
      ((List.range c).map
        (fun i => ((((i + 1) * keys.length) / c : Nat) - (1 : Int)))).Chain' (· < ·) ∧
      (∀ x ∈ (get_df_bins keys c).2, 0 ≤ x ∧ x ≤ (keys.length : Int) - 1) ∧
      (get_df_bins keys c).2.getLast? = some ((keys.length : Int) - 1) := by
  have hfirst : 1 ≤ keys.length / c := (Nat.one_le_div_iff (by omega)).mpr hrc
  have hbound : ∀ i, i < c → (i + 1) * keys.length / c ≤ keys.length := by
    intro i hi
    calc (i + 1) * keys.length / c ≤ c * keys.length / c :=
          Nat.div_le_div_right (Nat.mul_le_mul_right _ (by omega))
      _ = keys.length := by
          rw [Nat.mul_comm]
          exact Nat.mul_div_cancel _ (by omega)
  have hlow : ∀ i, i < c → 1 ≤ (i + 1) * keys.length / c := by
    intro i hi
    calc 1 ≤ keys.length / c := hfirst
      _ = 1 * keys.length / c := by rw [Nat.one_mul]
      _ ≤ (i + 1) * keys.length / c :=
          Nat.div_le_div_right (Nat.mul_le_mul_right _ (by omega))
  refine ⟨rfl, ?_, ?_, ?_⟩
  · cases c with
    | zero => omega
    | succ m =>
      rw [List.chain'_map]
      apply (List.chain'_range_succ _ m).mpr
      intro i hi
      have hnorm : i.succ + 1 = i + 2 := by omega
      rw [hnorm]
      have := div_succ_lt keys.length (m + 1) i (by omega) hrc
      have hl := hlow i (by omega)
      omega
  · intro x hx
    rw [show (get_df_bins keys c).2 = 0 :: (List.range c).map
        (fun i => ((((i + 1) * keys.length) / c : Nat) - (1 : Int))) from rfl] at hx
    rcases List.mem_cons.mp hx with he | hm
    · subst he
      omega
    · rcases List.mem_map.mp hm with ⟨i, hi, he⟩
      rw [List.mem_range] at hi
      have h1 := hbound i hi
      have h2 := hlow i hi
      omega
  · rw [show (get_df_bins keys c).2 = 0 :: (List.range c).map
        (fun i => ((((i + 1) * keys.length) / c : Nat) - (1 : Int))) from rfl]
    rw [List.getLast?_eq_getElem?]
    have hlen2 : (0 :: (List.range c).map
        (fun i => ((((i + 1) * keys.length) / c : Nat) - (1 : Int)))).length = c + 1 := by
      simp
    rw [hlen2]
    have hc1 : c + 1 - 1 = (c - 1) + 1 := by omega
    rw [hc1, List.getElem?_cons_succ]
    rw [List.getElem?_eq_getElem (by simp; omega)]
    congr 1
    rw [List.getElem_map, List.getElem_range]
    have heq : (c - 1 + 1) * keys.length / c = keys.length := by
      have h2 : c - 1 + 1 = c := by omega
      rw [h2, Nat.mul_comm]
      exact Nat.mul_div_cancel _ (by omega)
    rw [heq]

/-- np.quantile with the default linear interpolation (the numpy library
primitive used by get_value_bins, modeled from its documented method):
sort the data, take the virtual index p*(n-1), and interpolate between
the neighbouring order statistics, the upper neighbour index clamped to
n-1.  Exact rational arithmetic stands in for numpy's float arithmetic. -/
def npQuantile (xs : List Rat) (p : Rat) : Rat :=
  let s := List.insertionSort (· ≤ ·) xs
  let virtual := p * ((s.length : Rat) - 1)
  let gamma := virtual - (⌊virtual⌋ : Rat)
  let a := s.getD ⌊virtual⌋.toNat 0
  let b := s.getD (min (⌊virtual⌋.toNat + 1) (s.length - 1)) 0
  a + gamma * (b - a)

theorem npQuantile_mono (xs : List Rat) (p q : Rat) (h0 : 0 ≤ p) (hpq : p ≤ q)
    (h1 : q ≤ 1) : npQuantile xs p ≤ npQuantile xs q := by
  simp only [npQuantile]
  have hsorted : (List.insertionSort (· ≤ ·) xs).Pairwise (· ≤ ·) :=
    List.sorted_insertionSort _ _
  set s := List.insertionSort (· ≤ ·) xs with hs
  cases hn : s.length with
  | zero =>
    have hnil : s = [] := List.length_eq_zero.mp hn
    rw [hnil]
    simp
  | succ m =>
    have hlen : ((m + 1 : Nat) : Rat) - 1 = (m : Rat) := by
      push_cast
      ring
    rw [hlen, show m + 1 - 1 = m from rfl]
    have hvp0 : 0 ≤ p * (m : Rat) := mul_nonneg h0 (by positivity)
    have hvq1 : q * (m : Rat) ≤ (m : Rat) := by
      calc q * (m : Rat) ≤ 1 * (m : Rat) :=
            mul_le_mul_of_nonneg_right h1 (by positivity)
        _ = (m : Rat) := one_mul _
    have hvpq : p * (m : Rat) ≤ q * (m : Rat) :=
      mul_le_mul_of_nonneg_right hpq (by positivity)
    have hfp0 : 0 ≤ ⌊p * (m : Rat)⌋ := by
      apply Int.le_floor.mpr
      simpa using hvp0
    have hfq1 : ⌊q * (m : Rat)⌋ ≤ (m : Int) := by
      have h2 := Int.floor_le_floor hvq1
      rwa [Int.floor_natCast] at h2
    have hfpq : ⌊p * (m : Rat)⌋ ≤ ⌊q * (m : Rat)⌋ := Int.floor_le_floor hvpq
    have hfp1 : ⌊p * (m : Rat)⌋ ≤ (m : Int) := le_trans hfpq hfq1
    have hgp0 : 0 ≤ p * (m : Rat) - (⌊p * (m : Rat)⌋ : Rat) :=
      sub_nonneg.mpr (Int.floor_le _)
    have hgq0 : 0 ≤ q * (m : Rat) - (⌊q * (m : Rat)⌋ : Rat) :=
      sub_nonneg.mpr (Int.floor_le _)
    have hgp1 : p * (m : Rat) - (⌊p * (m : Rat)⌋ : Rat) ≤ 1 := by
      have := Int.lt_floor_add_one (p * (m : Rat))
      linarith
    have hgq1 : q * (m : Rat) - (⌊q * (m : Rat)⌋ : Rat) ≤ 1 := by
      have := Int.lt_floor_add_one (q * (m : Rat))
      linarith
    have hmono := sorted_getD_mono s hsorted
    rcases eq_or_lt_of_le hfpq with hfe | hflt
    · -- same lower order statistic: compare the interpolation weights
      rw [← hfe]
      have hb_ge_a : s.getD ⌊p * (m : Rat)⌋.toNat 0 ≤
          s.getD (min (⌊p * (m : Rat)⌋.toNat + 1) m) 0 := by
        apply hmono
        · omega
        · omega
      have hgle : p * (m : Rat) - (⌊p * (m : Rat)⌋ : Rat) ≤
          q * (m : Rat) - (⌊p * (m : Rat)⌋ : Rat) := by linarith
      nlinarith [mul_nonneg (sub_nonneg.mpr hgle) (sub_nonneg.mpr hb_ge_a)]
    · -- the lower order statistic advances: go through the upper
      -- neighbour of p and the lower order statistic of q
      have hab_p : s.getD ⌊p * (m : Rat)⌋.toNat 0 ≤
          s.getD (min (⌊p * (m : Rat)⌋.toNat + 1) m) 0 := by
        apply hmono
        · omega
        · omega
      have hab_q : s.getD ⌊q * (m : Rat)⌋.toNat 0 ≤
          s.getD (min (⌊q * (m : Rat)⌋.toNat + 1) m) 0 := by
        apply hmono
        · omega
        · omega
      have hstep : s.getD (min (⌊p * (m : Rat)⌋.toNat + 1) m) 0 ≤
          s.getD ⌊q * (m : Rat)⌋.toNat 0 := by
        apply hmono
        · omega
        · omega
      nlinarith [mul_nonneg
          (by linarith : (0 : Rat) ≤ 1 - (p * (m : Rat) - (⌊p * (m : Rat)⌋ : Rat)))
          (sub_nonneg.mpr hab_p),
        mul_nonneg hgq0 (sub_nonneg.mpr hab_q), hstep]

/-- Embedding of get_value_bins: numCores+1 evenly spaced percentiles of
the query values, their quantiles, each mapped to a key-column index by
np.searchsorted; np.take bound-checks the indices, raising IndexError
(the outer none) when a quantile lands past the last key. -/
def get_value_bins (values keys : List Rat) (num_cores : Nat) :
    Option (List Rat × List Nat) :=
  let quantiles := ((List.range (num_cores + 1)).map
    (fun i : Nat => ((i : Rat) / (num_cores : Rat)))).map (npQuantile values)
  let idx_bins := quantiles.map (fun q => bisectLeft keys q 0 keys.length)
  if idx_bins.all (fun i => decide (i < keys.length)) then
    some (idx_bins.map (fun i => keys.getD i 0), idx_bins)
  else none

theorem get_value_bins_sound (values keys : List Rat) (c : Nat) (hc : 1 ≤ c)
    (bins : List Rat) (idx : List Nat)
    (h : get_value_bins values keys c = some (bins, idx)) :
    idx.Chain' (· ≤ ·) ∧ ∀ i ∈ idx, i ≤ keys.length - 1 := by
  have hcpos : (0 : Rat) < (c : Rat) := by
    rw [show (0 : Rat) = ((0 : Nat) : Rat) from rfl, Nat.cast_lt]
    omega
  unfold get_value_bins at h
  by_cases hall : ((((List.range (c + 1)).map
      (fun i : Nat => ((i : Rat) / (c : Rat)))).map (npQuantile values)).map
      (fun q => bisectLeft keys q 0 keys.length)).all
      (fun i => decide (i < keys.length)) = true
  · rw [if_pos hall] at h
    have hidx : idx = (((List.range (c + 1)).map
        (fun i : Nat => ((i : Rat) / (c : Rat)))).map (npQuantile values)).map
        (fun q => bisectLeft keys q 0 keys.length) :=
      (congrArg Prod.snd (Option.some.inj h)).symm
    constructor
    · rw [hidx, List.map_map, List.map_map, List.chain'_map]
      apply (List.chain'_range_succ _ c).mpr
      intro i hi
      simp only [Function.comp]
      have hq : npQuantile values ((i : Rat) / (c : Rat)) ≤
          npQuantile values (((i + 1 : Nat) : Rat) / (c : Rat)) := by
        apply npQuantile_mono
        · positivity
        · apply (div_le_div_right hcpos).mpr
          rw [Nat.cast_le]
          omega
        · apply (div_le_one hcpos).mpr
          rw [Nat.cast_le]
          omega
      have hb := bisectLeft_mono keys _ _ hq keys.length 0 keys.length
        (by omega) (le_refl _)
      convert hb using 3
    · intro i hi
      rw [hidx] at hi
      have hlt := List.all_eq_true.mp hall i hi
      rw [decide_eq_true_eq] at hlt
      omega
  · rw [if_neg hall] at h
    exact Option.noConfusion h

/-! ### Execution plan tree (executionnode.py)

The virtual-dispatch hierarchy FunctionExecutionNode / RefExecutionNode /
LitExecutionNode becomes a tagged union.  Collaborator values kept
abstract: the execution context type is a parameter χ, the backing table
type a parameter τ with Table.gen_table_for_execution a parameter
g : τ → τ; function identity, Ref and RefType/axis are opaque Nat
payloads.  The constructor defaults of the Python base class appear
literally: exec_context = None, cores = 1, subtree_idx = 0, and a ref
node's row/col offsets start as None.  The recursion over self.children
is embedded as mutual recursion with an explicit list helper. -/

inductive ENode (χ τ : Type) : Type where
  | func (function : Nat) (ref : Nat) (outRefType : Nat) (outRefAxis : Nat)
      (frRfOptimization : Nat) (execContext : Option χ) (cores : Nat)
      (subtreeIdx : Nat) (children : List (ENode χ τ)) : ENode χ τ
  | ref (ref : Nat) (table : τ) (outRefType : Nat) (outRefAxis : Nat)
      (execContext : Option χ) (cores : Nat) (subtreeIdx : Nat)
      (rowOffset : Option Int) (colOffset : Option Int) : ENode χ τ
  | lit (literal : Int) (outRefType : Nat) (outRefAxis : Nat)
      (execContext : Option χ) (cores : Nat) (subtreeIdx : Nat) : ENode χ τ

mutual
/-- Embedding of set_exec_context: a function node stores the context and
recurses into its children; a ref node stores the context; a lit node's
override is `pass` and leaves the node unchanged. -/
def set_exec_context {χ τ : Type} (ctx : χ) : ENode χ τ → ENode χ τ
  | .func f r t a fr _ c s ch => .func f r t a fr (some ctx) c s
      (set_exec_context_list ctx ch)
  | .ref r tb t a _ c s ro co => .ref r tb t a (some ctx) c s ro co
  | .lit l t a c0 cr s => .lit l t a c0 cr s

def set_exec_context_list {χ τ : Type} (ctx : χ) :
    List (ENode χ τ) → List (ENode χ τ)
  | [] => []
  | n :: rest => set_exec_context ctx n :: set_exec_context_list ctx rest
end

mutual
/-- Embedding of gen_exec_subtree: a function node is rebuilt through its
constructor (fresh context/metadata defaults), the FR/RF flag copied, and
the children cloned recursively; a ref node is rebuilt with a regenerated
backing table view (gen_table_for_execution, the parameter g); a lit node
is rebuilt from its literal. -/
def gen_exec_subtree {χ τ : Type} (g : τ → τ) : ENode χ τ → ENode χ τ
  | .func f r t a fr _ _ _ ch => .func f r t a fr none 1 0
      (gen_exec_subtree_list g ch)
  | .ref r tb t a _ _ _ _ _ => .ref r (g tb) t a none 1 0 none none
  | .lit l t a _ _ _ => .lit l t a none 1 0

def gen_exec_subtree_list {χ τ : Type} (g : τ → τ) :
    List (ENode χ τ) → List (ENode χ τ)
  | [] => []
  | n :: rest => gen_exec_subtree g n :: gen_exec_subtree_list g rest
end

mutual
/-- All nodes of a tree, the root first (the tree plus its descendants). -/
def nodes {χ τ : Type} : ENode χ τ → List (ENode χ τ)
  | .func f r t a fr c cr s ch => .func f r t a fr c cr s ch :: nodes_list ch
  | .ref r tb t a c cr s ro co => [.ref r tb t a c cr s ro co]
  | .lit l t a c cr s => [.lit l t a c cr s]

def nodes_list {χ τ : Type} : List (ENode χ τ) → List (ENode χ τ)
  | [] => []
  | n :: rest => nodes n ++ nodes_list rest
end

def execContextOf {χ τ : Type} : ENode χ τ → Option χ
  | .func _ _ _ _ _ c _ _ _ => c
  | .ref _ _ _ _ c _ _ _ _ => c
  | .lit _ _ _ c _ _ => c

def coresOf {χ τ : Type} : ENode χ τ → Nat
  | .func _ _ _ _ _ _ c _ _ => c
  | .ref _ _ _ _ _ c _ _ _ => c
  | .lit _ _ _ _ c _ => c

def subtreeIdxOf {χ τ : Type} : ENode χ τ → Nat
  | .func _ _ _ _ _ _ _ s _ => s
  | .ref _ _ _ _ _ _ s _ _ => s
  | .lit _ _ _ _ _ s => s

def isLit {χ τ : Type} : ENode χ τ → Bool
  | .lit _ _ _ _ _ _ => true
  | _ => false

mutual
/-- The contexts carried by the literal nodes of a tree, left to right. -/
def litCtxs {χ τ : Type} : ENode χ τ → List (Option χ)
  | .func _ _ _ _ _ _ _ _ ch => litCtxs_list ch
  | .ref _ _ _ _ _ _ _ _ _ => []
  | .lit _ _ _ c _ _ => [c]

def litCtxs_list {χ τ : Type} : List (ENode χ τ) → List (Option χ)
  | [] => []
  | n :: rest => litCtxs n ++ litCtxs_list rest
end

/-- The structural skeleton of a tree: node kinds, child list shapes, and
the immutable identities (function, reference, literal, reference types,
axes and the FR/RF optimization flag), without the mutable per-partition
state (context, metadata, offsets) and without the backing tables. -/
inductive Skel : Type where
  | func (function ref outRefType outRefAxis frRfOptimization : Nat)
      (children : List Skel) : Skel
  | ref (ref outRefType outRefAxis : Nat) : Skel
  | lit (literal : Int) (outRefType outRefAxis : Nat) : Skel

mutual
def skeleton {χ τ : Type} : ENode χ τ → Skel
  | .func f r t a fr _ _ _ ch => .func f r t a fr (skeleton_list ch)
  | .ref r _ t a _ _ _ _ _ => .ref r t a
  | .lit l t a _ _ _ => .lit l t a

def skeleton_list {χ τ : Type} : List (ENode χ τ) → List Skel
  | [] => []
  | n :: rest => skeleton n :: skeleton_list rest
end

mutual
/-- The backing tables of the reference nodes, left to right. -/
def refTables {χ τ : Type} : ENode χ τ → List τ
  | .func _ _ _ _ _ _ _ _ ch => refTables_list ch
  | .ref _ tb _ _ _ _ _ _ _ => [tb]
  | .lit _ _ _ _ _ _ => []

def refTables_list {χ τ : Type} : List (ENode χ τ) → List τ
  | [] => []
  | n :: rest => refTables n ++ refTables_list rest
end

theorem ENode.strongInduction {χ τ : Type} {motive : ENode χ τ → Prop}
    (hf : ∀ f r t a fr c cr s ch, (∀ x ∈ ch, motive x) →
      motive (.func f r t a fr c cr s ch))
    (hr : ∀ r tb t a c cr s ro co, motive (.ref r tb t a c cr s ro co))
    (hl : ∀ l t a c cr s, motive (.lit l t a c cr s)) :
    ∀ n, motive n :=
  @ENode.rec χ τ motive (fun l => ∀ x ∈ l, motive x)
    (fun f r t a fr c cr s ch ih => hf f r t a fr c cr s ch ih)
    (fun r tb t a c cr s ro co => hr r tb t a c cr s ro co)
    (fun l t a c cr s => hl l t a c cr s)
    (fun x hx => absurd hx (by simp))
    (fun a l iha ihl => fun x hx => by
      rcases List.mem_cons.mp hx with he | hm
      · rw [he]; exact iha
      · exact ihl x hm)

mutual
/-- Amended context-propagation property: after set_exec_context every
function and reference node of the tree carries exactly the assigned
context, while literal nodes keep the contexts they had (their override
is a no-op). -/
theorem set_exec_context_sound {χ τ : Type} (ctx : χ) (n : ENode χ τ) :
    (∀ d ∈ nodes (set_exec_context ctx n),
      isLit d = false → execContextOf d = some ctx) ∧
      litCtxs (set_exec_context ctx n) = litCtxs n := by
  cases n with
  | func f r t a fr c cr s ch =>
    have hlist := set_exec_context_sound_list ctx ch
    rw [set_exec_context, nodes, litCtxs, litCtxs]
    constructor
    · intro d hd
      rcases List.mem_cons.mp hd with he | hm
      · rw [he]
        intro _
        rfl
      · exact hlist.1 d hm
    · exact hlist.2
  | ref r tb t a c cr s ro co =>
    rw [set_exec_context, nodes, litCtxs, litCtxs]
    refine ⟨?_, rfl⟩
    intro d hd
    rcases List.mem_cons.mp hd with he | hm
    · rw [he]
      intro _
      rfl
    · exact absurd hm (by simp)
  | lit l t a c cr s =>
    rw [set_exec_context, nodes]
    refine ⟨?_, rfl⟩
    intro d hd
    rcases List.mem_cons.mp hd with he | hm
    · rw [he]
      intro hcon
      exact absurd hcon (by rw [isLit]; simp)
    · exact absurd hm (by simp)

theorem set_exec_context_sound_list {χ τ : Type} (ctx : χ) (l : List (ENode χ τ)) :
    (∀ d ∈ nodes_list (set_exec_context_list ctx l),
      isLit d = false → execContextOf d = some ctx) ∧
      litCtxs_list (set_exec_context_list ctx l) = litCtxs_list l := by
  cases l with
  | nil =>
    rw [set_exec_context_list, nodes_list, litCtxs_list]
    exact ⟨fun d hd => absurd hd (by simp), rfl⟩
  | cons x rest =>
    have hx := set_exec_context_sound ctx x
    have hrest := set_exec_context_sound_list ctx rest
    rw [set_exec_context_list, nodes_list, litCtxs_list, litCtxs_list]
    constructor
    · intro d hd
      rcases List.mem_append.mp hd with hm | hm
      · exact hx.1 d hm
      · exact hrest.1 d hm
    · rw [hx.2, hrest.2]
end

mutual
/-- Per-partition cloning preserves the structural skeleton (node kinds,
child counts and order, function/reference/literal identities, reference
types, axes, FR/RF flags), regenerates each reference node's backing
table view through gen_table_for_execution, and gives every node of the
clone the freshly constructed mutable state (no context, cores 1,
subtree index 0). -/
theorem gen_exec_subtree_sound {χ τ : Type} (g : τ → τ) (n : ENode χ τ) :
    skeleton (gen_exec_subtree g n) = skeleton n ∧
      refTables (gen_exec_subtree g n) = (refTables n).map g ∧
      ∀ d ∈ nodes (gen_exec_subtree g n),
        execContextOf d = none ∧ coresOf d = 1 ∧ subtreeIdxOf d = 0 := by
  cases n with
  | func f r t a fr c cr s ch =>
    have hlist := gen_exec_subtree_sound_list g ch
    rw [gen_exec_subtree, skeleton, skeleton, refTables, refTables, nodes]
    refine ⟨by rw [hlist.1], by rw [hlist.2.1], ?_⟩
    intro d hd
    rcases List.mem_cons.mp hd with he | hm
    · rw [he]
      exact ⟨rfl, rfl, rfl⟩
    · exact hlist.2.2 d hm
  | ref r tb t a c cr s ro co =>
    rw [gen_exec_subtree, skeleton, skeleton, refTables, refTables, nodes]
    refine ⟨rfl, rfl, ?_⟩
    intro d hd
    rcases List.mem_cons.mp hd with he | hm
    · rw [he]
      exact ⟨rfl, rfl, rfl⟩
    · exact absurd hm (by simp)
  | lit l t a c cr s =>
    rw [gen_exec_subtree, skeleton, skeleton, refTables, refTables, nodes]
    refine ⟨rfl, rfl, ?_⟩
    intro d hd
    rcases List.mem_cons.mp hd with he | hm
    · rw [he]
      exact ⟨rfl, rfl, rfl⟩
    · exact absurd hm (by simp)

theorem gen_exec_subtree_sound_list {χ τ : Type} (g : τ → τ) (l : List (ENode χ τ)) :
    skeleton_list (gen_exec_subtree_list g l) = skeleton_list l ∧
      refTables_list (gen_exec_subtree_list g l) = (refTables_list l).map g ∧
      ∀ d ∈ nodes_list (gen_exec_subtree_list g l),
        execContextOf d = none ∧ coresOf d = 1 ∧ subtreeIdxOf d = 0 := by
  cases l with
  | nil =>
    rw [gen_exec_subtree_list, skeleton_list, refTables_list, nodes_list]
    exact ⟨rfl, rfl, fun d hd => absurd hd (by simp)⟩
  | cons x rest =>
    have hx := gen_exec_subtree_sound g x
    have hrest := gen_exec_subtree_sound_list g rest
    rw [gen_exec_subtree_list, skeleton_list, skeleton_list, refTables_list,
      refTables_list, nodes_list]
    refine ⟨?_, ?_, ?_⟩
    · rw [hx.1, hrest.1]
    · rw [hx.2.1, hrest.2.1, List.map_append]
    · intro d hd
      rcases List.mem_append.mp hd with hm | hm
      · exact hx.2.2 d hm
      · exact hrest.2.2 d hm
end

/-! ### Plan rewriter (planrewriter.py)

A logical plan node carries children and a parent back-reference mutated
in place; in this functional embedding the tree value owns its children,
so reattaching the rewritten children and repointing their parent at the
new root are both captured by rebuilding the root with the new child
list (cf. the spec's design note on making rewriting purely functional).
The individual rules live in rewritingrule.py, outside this core: a
rule's rewrite method is an opaque tree-to-tree function and the declared
full_rewriting_rule_list an opaque list parameter, so the theorem
quantifies over them. -/

inductive PNode : Type where
  | mk (payload : Nat) (children : List PNode) : PNode

def PNode.payload : PNode → Nat
  | .mk p _ => p

def PNode.children : PNode → List PNode
  | .mk _ ch => ch

/-- Embedding of apply_one_rule: rewrite the root, rewrite each immediate
child of the rewritten root independently, reattach the rewritten
children (their parent back-references point at the new root by
construction). -/
def apply_one_rule (plan_tree : PNode) (rule : PNode → PNode) : PNode :=
  PNode.mk (rule plan_tree).payload ((rule plan_tree).children.map rule)

/-- Embedding of PlanRewriter.rewrite_plan: the for-loop threads the tree
through apply_one_rule for every rule of the declared list in order when
rewriting is enabled, and returns the root untouched otherwise. -/
def rewrite_plan (enable_rewriting : Bool)
    (full_rewriting_rule_list : List (PNode → PNode)) (root : PNode) : PNode :=
  if enable_rewriting then full_rewriting_rule_list.foldl apply_one_rule root
  else root

def rewriteSpecGo : List (PNode → PNode) → PNode → PNode
  | [], t => t
  | rule :: rest, t =>
      rewriteSpecGo rest (PNode.mk (rule t).payload ((rule t).children.map rule))

/-- Modelled from the spec: identity if rewriting is disabled; otherwise
the declared rule list is applied in exactly its declared order, each
rule once to the root and once independently to each immediate child of
the rewritten root, reattaching the rewritten children. -/
def rewriteSpec (enable_rewriting : Bool) (rules : List (PNode → PNode))
    (root : PNode) : PNode :=
  if enable_rewriting then rewriteSpecGo rules root else root

theorem foldl_apply_one_rule_eq_go (rules : List (PNode → PNode)) :
    ∀ t, rules.foldl apply_one_rule t = rewriteSpecGo rules t := by
  induction rules with
  | nil => intro t; rfl
  | cons rule rest ih =>
    intro t
    rw [List.foldl_cons, rewriteSpecGo, ih]
    rfl

/-! ### Claim theorems -/

theorem absLoop_11_eval : absLoop [1, 1] 1 0 1 = 0 := by
  rw [absLoop, if_pos (by omega), if_neg (by decide), if_neg (by decide)]
  decide

theorem bisectLeft_13_eval : bisectLeft [(1 : Int), 3] 0 0 2 = 0 := by
  rw [bisectLeft, if_pos (by omega), if_neg (by decide)]
  rw [bisectLeft, if_pos (by omega), if_neg (by decide)]
  rw [bisectLeft, if_neg (by omega)]

theorem bisectLeft_zero {α : Type} [LinearOrder α] (K : List α) (v : α) :
    bisectLeft K v 0 0 = 0 := by
  rw [bisectLeft, if_neg (by omega)]

/-- C1 counterexample.  Reading sorted ascending as allowing equal keys,
the claimed characterization fails: for K = [1,1], R = [10,20], v = 1,
the unique index j with K[j] ≤ v and (j = len-1 or K[j+1] > v) is j = 1,
but the scalar lookup returns R[0] = 10, not R[1] = 20 — the exact-match
short-circuit of the binary search stops at a duplicate key below the
largest qualifying index. -/
theorem C1_counterexample :
    List.Pairwise (· ≤ ·) [(1 : Int), 1] ∧
    ([(1 : Int), 1].getD 1 0 ≤ 1 ∧ 1 = [(1 : Int), 1].length - 1) ∧
    (∀ j, j < [(1 : Int), 1].length → [(1 : Int), 1].getD j 0 ≤ 1 →
      (j = [(1 : Int), 1].length - 1 ∨ (1 : Int) < [(1 : Int), 1].getD (j + 1) 0) →
      j = 1) ∧
    lookup_binary_search [1] [(1 : Int), 1] [10, 20] = some [some 10] ∧
    some (10 : Int) ≠ some (20 : Int) := by
  refine ⟨by decide, by decide, by decide, ?_, by decide⟩
  have happrox : approx_binary_search 1 [(1 : Int), 1] = some 0 := by
    unfold approx_binary_search
    rw [if_pos (by decide), if_neg (by decide)]
    rw [show ((([(1 : Int), 1].length : Int)) - 1) = 1 by decide]
    rw [absLoop_11_eval]
  simp only [lookup_binary_search, List.mapM_cons, List.mapM_nil, happrox,
    Option.map_some']
  rfl

/-- C1 (amended to a strictly ascending key column).  For every strictly
ascending nonempty K, aligned R and query v: the scalar lookup returns
missing iff v < K[0]; otherwise it returns R[j] where j is the unique
index with K[j] ≤ v and (j = len-1 or K[j+1] > v), exact matches
resolving to the matched index (which for distinct keys is that same j). -/
theorem C1_lookup_characterization (K R : List Int) (v : Int)
    (hK : K.Pairwise (· < ·)) (hne : K ≠ []) (hlen : R.length = K.length) :
    (lookup_binary_search [v] K R = some [none] ↔ v < K.headD 0) ∧
    (∀ j, (hj : j < K.length) → K.getD j 0 ≤ v →
      (j = K.length - 1 ∨ v < K.getD (j + 1) 0) →
      lookup_binary_search [v] K R = some [some (R.getD j 0)]) := by
  have hKle : K.Pairwise (· ≤ ·) := hK.imp (fun h => le_of_lt h)
  have hspec := lookup_binary_search_eq_spec [v] K R hK hne
  rw [List.map_cons, List.map_nil] at hspec
  constructor
  · rw [hspec]
    unfold lookupSpec
    constructor
    · intro h
      have h2 : (if cntLE K v = 0 then (none : Option Int)
          else some (R.getD (cntLE K v - 1) 0)) = none := by
        have := Option.some.inj h
        exact (List.cons.injEq _ _ _ _).mp this |>.1
      by_cases h0 : cntLE K v = 0
      · exact (cntLE_eq_zero_iff K v hKle hne).mp h0
      · rw [if_neg h0] at h2
        exact Option.noConfusion h2
    · intro h
      rw [if_pos ((cntLE_eq_zero_iff K v hKle hne).mpr h)]
  · intro j hj hle hnext
    have hjlt : j < cntLE K v := by
      have := (cntLE_iff K v hKle j hj).mp (by
        rw [List.getD_eq_getElem K 0 hj] at hle
        rw [List.get_eq_getElem]
        exact hle)
      exact this
    have hjge : cntLE K v ≤ j + 1 := by
      rcases hnext with hlast | hgt
      · have := cntLE_le_length K v
        omega
      · by_contra hcon
        have hj1 : j + 1 < K.length := by
          have := cntLE_le_length K v
          omega
        have := (cntLE_iff K v hKle (j + 1) hj1).mpr (by omega)
        rw [List.get_eq_getElem, ← List.getD_eq_getElem K 0 hj1] at this
        omega
    have hjeq : j = cntLE K v - 1 := by omega
    rw [hspec]
    unfold lookupSpec
    rw [if_neg (by omega), hjeq]

/-- C1 witness: K = [1,3,5,7], R = [10,20,30,40], v = 4: no miss and the
unique qualifying index is 1 (spec example 1). -/
theorem C1_witness :
    (List.Pairwise (· < ·) [(1 : Int), 3, 5, 7] ∧ [(1 : Int), 3, 5, 7] ≠ [] ∧
      [(10 : Int), 20, 30, 40].length = [(1 : Int), 3, 5, 7].length) ∧
    ((lookup_binary_search [4] [(1 : Int), 3, 5, 7] [10, 20, 30, 40] = some [none] ↔
        (4 : Int) < [(1 : Int), 3, 5, 7].headD 0) ∧
      (∀ j, (hj : j < [(1 : Int), 3, 5, 7].length) →
        [(1 : Int), 3, 5, 7].getD j 0 ≤ 4 →
        (j = [(1 : Int), 3, 5, 7].length - 1 ∨
          (4 : Int) < [(1 : Int), 3, 5, 7].getD (j + 1) 0) →
        lookup_binary_search [4] [(1 : Int), 3, 5, 7] [10, 20, 30, 40] =
          some [some ([(10 : Int), 20, 30, 40].getD j 0)])) :=
  ⟨⟨by decide, by decide, by decide⟩,
    C1_lookup_characterization [(1 : Int), 3, 5, 7] [10, 20, 30, 40] 4
      (by decide) (by decide) (by decide)⟩

/-- C10: for every value and every nonempty list, sorted or not, the
search loop terminates (the embedding's well-founded measure (high+1-low)
is exactly the claimed shrinking of [low, high]) and the function returns
an integer in {-1} ∪ [0, len-1]. -/
theorem C10_approx_binary_search_range (arr : List Int) (v : Int) (hne : arr ≠ []) :
    ∃ r : Int, approx_binary_search v arr = some r ∧
      (r = -1 ∨ (0 ≤ r ∧ r ≤ (arr.length : Int) - 1)) := by
  have hlen : 0 < arr.length := List.length_pos.mpr hne
  unfold approx_binary_search
  rw [if_pos hlen]
  by_cases hv : v < arr.headD 0
  · rw [if_pos hv]
    exact ⟨-1, rfl, Or.inl rfl⟩
  · rw [if_neg hv]
    have hr := absLoop_range arr v (((arr.length : Int) - 1) + 1 - 0).toNat 0
      ((arr.length : Int) - 1) (by omega) (by omega) (by omega) (by omega)
    refine ⟨_, rfl, ?_⟩
    rcases hr with ⟨h1, h2⟩
    by_cases hm : absLoop arr v 0 ((arr.length : Int) - 1) = -1
    · exact Or.inl hm
    · exact Or.inr ⟨by omega, h2⟩

/-- C10 witness at the unsorted list [5,2,9] and value 3. -/
theorem C10_witness :
    ([(5 : Int), 2, 9] ≠ []) ∧
    (∃ r : Int, approx_binary_search 3 [5, 2, 9] = some r ∧
      (r = -1 ∨ (0 ≤ r ∧ r ≤ (([(5 : Int), 2, 9].length : Int)) - 1))) :=
  ⟨by decide, C10_approx_binary_search_range [5, 2, 9] 3 (by decide)⟩

/-- C2 counterexample: on identical valid inputs the implementations do
not all return identical results.  For a query below the minimum key the
list-comprehension variant returns the last row's value — its guard
`value_idxes != -1` compares a Python list against -1 and is always
true, so the corrected index -1 reaches df.iloc[-1] and wraps — while
the scalar binary search returns the missing marker. -/
theorem C2_counterexample :
    vlookup_approx_np_lc [0] [(1 : Int), 3] [10, 20] = [some 20] ∧
    lookup_binary_search [0] [(1 : Int), 3] [10, 20] = some [none] ∧
    ([some (20 : Int)] : List (Option Int)) ≠ [none] := by
  refine ⟨?_, by decide, by decide⟩
  have hbis : bisectLeft [(1 : Int), 3] 0 0 ([(1 : Int), 3].length) = 0 :=
    bisectLeft_13_eval
  simp only [vlookup_approx_np_lc, List.map_cons, List.map_nil, hbis]
  decide

/-- C2 (amended).  On identical inputs with a strictly ascending nonempty
key column and aligned result column, the scalar binary search, batched
searchsorted with scalar correction, fully vectorized (nonempty query
list), sort-merge and as-of-join implementations return identical
results — each equals the specified approximate match applied per query,
with identical missing markers below the minimum key and identical
resolution of exact matches.  The list-comprehension variant agrees
whenever no query is below the minimum key (C2_counterexample shows its
missing branch is unreachable), and the broadcast-constant variant agrees
whenever its output size equals the key-column length (its bounds check
compares the insertion point against the output size). -/
theorem C2_implementations_agree (vs K R : List Int) (v0 : Int)
    (hK : K.Pairwise (· < ·)) (hne : K ≠ []) (hlen : R.length = K.length) :
    lookup_binary_search vs K R = some (vs.map (lookupSpec K R)) ∧
    lookup_binary_search_np vs K R = vs.map (lookupSpec K R) ∧
    (vs ≠ [] →
      lookup_binary_search_np_vector vs K R = some (vs.map (lookupSpec K R))) ∧
    lookup_sort_merge vs K R = vs.map (lookupSpec K R) ∧
    vlookup_approx_pd_merge vs K R = vs.map (lookupSpec K R) ∧
    ((∀ v ∈ vs, K.headD 0 ≤ v) →
      vlookup_approx_np_lc vs K R = vs.map (lookupSpec K R)) ∧
    vlookup_approx_constants v0 K R K.length =
      List.replicate K.length (lookupSpec K R v0) := by
  have hKle : K.Pairwise (· ≤ ·) := hK.imp (fun h => le_of_lt h)
  exact ⟨lookup_binary_search_eq_spec vs K R hK hne,
    lookup_binary_search_np_eq_spec vs K R hK,
    fun hvs => lookup_binary_search_np_vector_eq_spec vs K R hK hvs,
    lookup_sort_merge_eq_spec vs K R hKle,
    vlookup_approx_pd_merge_eq_spec vs K R hKle,
    fun hm => vlookup_approx_np_lc_eq_spec vs K R hK hne hm,
    vlookup_approx_constants_eq_spec v0 K R hK hne⟩

/-- C2 witness at vs = [0,3,4,7], K = [1,3,5], R = [10,20,30], v0 = 3. -/
theorem C2_witness :
    (List.Pairwise (· < ·) [(1 : Int), 3, 5] ∧ [(1 : Int), 3, 5] ≠ [] ∧
      [(10 : Int), 20, 30].length = [(1 : Int), 3, 5].length) ∧
    (lookup_binary_search [0, 3, 4, 7] [(1 : Int), 3, 5] [10, 20, 30] =
        some ([0, 3, 4, 7].map (lookupSpec [(1 : Int), 3, 5] [10, 20, 30])) ∧
      lookup_binary_search_np [0, 3, 4, 7] [(1 : Int), 3, 5] [10, 20, 30] =
        [0, 3, 4, 7].map (lookupSpec [(1 : Int), 3, 5] [10, 20, 30]) ∧
      (([0, 3, 4, 7] : List Int) ≠ [] →
        lookup_binary_search_np_vector [0, 3, 4, 7] [(1 : Int), 3, 5] [10, 20, 30] =
          some ([0, 3, 4, 7].map (lookupSpec [(1 : Int), 3, 5] [10, 20, 30]))) ∧
      lookup_sort_merge [0, 3, 4, 7] [(1 : Int), 3, 5] [10, 20, 30] =
        [0, 3, 4, 7].map (lookupSpec [(1 : Int), 3, 5] [10, 20, 30]) ∧
      vlookup_approx_pd_merge [0, 3, 4, 7] [(1 : Int), 3, 5] [10, 20, 30] =
        [0, 3, 4, 7].map (lookupSpec [(1 : Int), 3, 5] [10, 20, 30]) ∧
      ((∀ v ∈ ([0, 3, 4, 7] : List Int), [(1 : Int), 3, 5].headD 0 ≤ v) →
        vlookup_approx_np_lc [0, 3, 4, 7] [(1 : Int), 3, 5] [10, 20, 30] =
          [0, 3, 4, 7].map (lookupSpec [(1 : Int), 3, 5] [10, 20, 30])) ∧
      vlookup_approx_constants 3 [(1 : Int), 3, 5] [10, 20, 30]
          ([(1 : Int), 3, 5].length) =
        List.replicate ([(1 : Int), 3, 5].length)
          (lookupSpec [(1 : Int), 3, 5] [10, 20, 30] 3)) :=
  ⟨⟨by decide, by decide, by decide⟩,
    C2_implementations_agree [0, 3, 4, 7] [(1 : Int), 3, 5] [10, 20, 30] 3
      (by decide) (by decide) (by decide)⟩

/-- C3 counterexample: with an empty search key column and a nonempty
query list, the batched searchsorted implementation does not fail
fatally — it returns a per-row missing result (the corrected index is -1
for every query) — while the scalar implementation's assertion aborts. -/
theorem C3_counterexample :
    lookup_binary_search_np [0] ([] : List Int) [] = [none] ∧
    lookup_binary_search [0] ([] : List Int) [] = none := by
  constructor
  · have hbis : bisectLeft ([] : List Int) 0 0 (([] : List Int).length) = 0 :=
      bisectLeft_zero _ _
    simp only [lookup_binary_search_np, List.map_cons, List.map_nil, hbis]
    decide
  · decide

/-- C3 (amended).  On an empty search key column, the scalar
implementation fails fatally whenever at least one query is evaluated
(the assertion in approx_binary_search aborts the formula), but the
batched searchsorted-with-correction and sort-merge implementations do
not fail: each returns a per-row missing result. -/
theorem C3_empty_key_column (vs R : List Int) (hvs : vs ≠ []) :
    lookup_binary_search vs [] R = none ∧
    lookup_binary_search_np vs [] R = vs.map (fun _ => none) ∧
    lookup_sort_merge vs [] R = vs.map (fun _ => none) := by
  refine ⟨?_, ?_, ?_⟩
  · cases vs with
    | nil => exact absurd rfl hvs
    | cons v tl =>
      simp only [lookup_binary_search, List.mapM_cons]
      rw [show approx_binary_search v ([] : List Int) = none from rfl]
      rfl
  · unfold lookup_binary_search_np
    apply List.map_congr_left
    intro v _
    dsimp only
    simp only [List.length_nil]
    rw [bisectLeft_zero]
    norm_num
  · rw [lookup_sort_merge_eq_spec vs [] R (by simp)]
    apply List.map_congr_left
    intro v _
    rfl

/-- C3 witness at the query list [0]. -/
theorem C3_witness :
    (([0] : List Int) ≠ []) ∧
    (lookup_binary_search [0] [] ([] : List Int) = none ∧
      lookup_binary_search_np [0] [] ([] : List Int) = [0].map (fun _ => none) ∧
      lookup_sort_merge [0] [] ([] : List Int) = [0].map (fun _ => none)) :=
  ⟨by decide, C3_empty_key_column [0] [] (by decide)⟩

/-- The per-query result of the scalar lookup (the loop body of
lookup_binary_search) when the key column is nonempty. -/
def scalarOne (K R : List Int) (v : Int) : Option Int :=
  if (if v < K.headD 0 then (-1 : Int)
      else absLoop K v 0 ((K.length : Int) - 1)) ≠ -1 then
    some (R.getD (if v < K.headD 0 then (-1 : Int)
      else absLoop K v 0 ((K.length : Int) - 1)).toNat 0)
  else none

/-- The per-query result of lookup_binary_search_np. -/
def npOne (K R : List Int) (v : Int) : Option Int :=
  let ss : Nat := bisectLeft K v 0 K.length
  let value_idx : Int :=
    if ss ≥ K.length then (ss : Int) - 1
    else if v ≠ K.getD ss 0 then (ss : Int) - 1
    else (ss : Int)
  if value_idx ≠ -1 then some (R.getD value_idx.toNat 0) else none

/-- The per-query result of lookup_binary_search_np_vector. -/
def npVectorOne (K R : List Int) (v : Int) : Option Int :=
  let value_idx : Nat := bisectLeft K v 0 K.length
  let greater_than_length : Bool := decide (value_idx ≥ K.length)
  let value_idx_no_oob : Nat := min value_idx (K.length - 1)
  let search_range_value : Int := K.getD value_idx_no_oob 0
  let approximate_match : Bool := decide (v ≠ search_range_value)
  let combined : Int := if greater_than_length || approximate_match then 1 else 0
  let adjusted_idx : Int := (value_idx : Int) - combined
  if adjusted_idx = -1 then none else some (R.getD adjusted_idx.toNat 0)

/-- The per-query result of vlookup_approx_np_lc. -/
def lcOne (K R : List Int) (v : Int) : Option Int :=
  let ss : Nat := bisectLeft K v 0 K.length
  let value_idx : Int :=
    if ss ≥ K.length then (ss : Int) - 1
    else if v ≠ K.getD ss 0 then (ss : Int) - 1
    else (ss : Int)
  some (R.getD (if value_idx = -1 then K.length - 1 else value_idx.toNat) 0)

theorem scalar_eq_map (vs K R : List Int) (hne : K ≠ []) :
    lookup_binary_search vs K R = some (vs.map (scalarOne K R)) := by
  apply mapM_eq_some_map
  intro v _
  unfold approx_binary_search scalarOne
  rw [if_pos (List.length_pos.mpr hne)]
  rfl

theorem np_eq_map (vs K R : List Int) :
    lookup_binary_search_np vs K R = vs.map (npOne K R) := rfl

theorem np_vector_eq_map (vs K R : List Int) (hvs : vs ≠ []) :
    lookup_binary_search_np_vector vs K R = some (vs.map (npVectorOne K R)) := by
  unfold lookup_binary_search_np_vector
  rw [if_neg (by simpa using hvs)]
  rfl

theorem lc_eq_map (vs K R : List Int) :
    vlookup_approx_np_lc vs K R = vs.map (lcOne K R) := rfl

theorem map_singleton_getD {α β : Type} [Inhabited β] (f : α → β) (d : β)
    (vs : List α) (i : Nat) (hi : i < vs.length) :
    [vs.get ⟨i, hi⟩].map f = [(vs.map f).getD i d] := by
  rw [List.map_cons, List.map_nil]
  congr 1
  rw [List.getD_eq_getElem _ _ (by simpa using hi), List.getElem_map,
    List.get_eq_getElem]

/-- C9 counterexample: on an empty query list the fully vectorized lookup
does not return a zero-row result — its final astype(type(res[0]))
indexes into the empty result array and raises IndexError, aborting the
call — while for instance the batched variant returns the expected empty
result. -/
theorem C9_counterexample :
    lookup_binary_search_np_vector ([] : List Int) [1, 3] [10, 20] = none ∧
    lookup_binary_search_np ([] : List Int) [1, 3] [10, 20] = [] :=
  ⟨rfl, rfl⟩

/-- C9 (amended to nonempty query lists; C9_counterexample covers the
empty one).  For a nonempty query list and valid (nonempty, sorted)
search and result ranges, each lookup implementation returns exactly one
row per query value, and the row at position i is precisely the
implementation's result for the query at position i — the result of
running it on that query alone — including the variants that sort the
queries internally. -/
theorem C9_position_preservation (vs K R : List Int) (hvs : vs ≠ [])
    (hK : K.Pairwise (· ≤ ·)) (hne : K ≠ []) (hlen : R.length = K.length) :
    (∃ res, lookup_binary_search vs K R = some res ∧ res.length = vs.length ∧
      ∀ i (hi : i < vs.length),
        lookup_binary_search [vs.get ⟨i, hi⟩] K R = some [res.getD i none]) ∧
    ((lookup_binary_search_np vs K R).length = vs.length ∧
      ∀ i (hi : i < vs.length),
        lookup_binary_search_np [vs.get ⟨i, hi⟩] K R =
          [(lookup_binary_search_np vs K R).getD i none]) ∧
    (∃ res, lookup_binary_search_np_vector vs K R = some res ∧
      res.length = vs.length ∧
      ∀ i (hi : i < vs.length),
        lookup_binary_search_np_vector [vs.get ⟨i, hi⟩] K R =
          some [res.getD i none]) ∧
    ((lookup_sort_merge vs K R).length = vs.length ∧
      ∀ i (hi : i < vs.length),
        lookup_sort_merge [vs.get ⟨i, hi⟩] K R =
          [(lookup_sort_merge vs K R).getD i none]) ∧
    ((vlookup_approx_pd_merge vs K R).length = vs.length ∧
      ∀ i (hi : i < vs.length),
        vlookup_approx_pd_merge [vs.get ⟨i, hi⟩] K R =
          [(vlookup_approx_pd_merge vs K R).getD i none]) ∧
    ((vlookup_approx_np_lc vs K R).length = vs.length ∧
      ∀ i (hi : i < vs.length),
        vlookup_approx_np_lc [vs.get ⟨i, hi⟩] K R =
          [(vlookup_approx_np_lc vs K R).getD i none]) := by
  refine ⟨?_, ⟨?_, ?_⟩, ?_, ⟨?_, ?_⟩, ⟨?_, ?_⟩, ⟨?_, ?_⟩⟩
  · refine ⟨vs.map (scalarOne K R), scalar_eq_map vs K R hne, List.length_map _ _, ?_⟩
    intro i hi
    rw [scalar_eq_map [vs.get ⟨i, hi⟩] K R hne,
      map_singleton_getD (scalarOne K R) none vs i hi]
  · rw [np_eq_map]
    exact List.length_map _ _
  · intro i hi
    rw [np_eq_map, np_eq_map, map_singleton_getD (npOne K R) none vs i hi]
  · refine ⟨vs.map (npVectorOne K R), np_vector_eq_map vs K R hvs,
      List.length_map _ _, ?_⟩
    intro i hi
    rw [np_vector_eq_map [vs.get ⟨i, hi⟩] K R (by simp),
      map_singleton_getD (npVectorOne K R) none vs i hi]
  · rw [lookup_sort_merge_eq_spec vs K R hK]
    exact List.length_map _ _
  · intro i hi
    rw [lookup_sort_merge_eq_spec vs K R hK,
      lookup_sort_merge_eq_spec [vs.get ⟨i, hi⟩] K R hK,
      map_singleton_getD (lookupSpec K R) none vs i hi]
  · rw [vlookup_approx_pd_merge_eq_spec vs K R hK]
    exact List.length_map _ _
  · intro i hi
    rw [vlookup_approx_pd_merge_eq_spec vs K R hK,
      vlookup_approx_pd_merge_eq_spec [vs.get ⟨i, hi⟩] K R hK,
      map_singleton_getD (lookupSpec K R) none vs i hi]
  · rw [lc_eq_map]
    exact List.length_map _ _
  · intro i hi
    rw [lc_eq_map, lc_eq_map, map_singleton_getD (lcOne K R) none vs i hi]

/-- C9 witness at vs = [7, 0, 4], K = [1, 3, 5], R = [10, 20, 30]. -/
theorem C9_witness :
    (([7, 0, 4] : List Int) ≠ [] ∧ List.Pairwise (· ≤ ·) [(1 : Int), 3, 5] ∧
      [(1 : Int), 3, 5] ≠ [] ∧
      [(10 : Int), 20, 30].length = [(1 : Int), 3, 5].length) ∧
    ((lookup_sort_merge [7, 0, 4] [(1 : Int), 3, 5] [10, 20, 30]).length =
      ([7, 0, 4] : List Int).length) :=
  ⟨⟨by decide, by decide, by decide, by decide⟩,
    (C9_position_preservation [7, 0, 4] [(1 : Int), 3, 5] [10, 20, 30]
      (by decide) (by decide) (by decide) (by decide)).2.2.2.1.1⟩

/-- C4 counterexample: for a 10-row key column and 4 cores, the boundary
index list returned by get_df_bins is [0, 1, 4, 6, 9]: five entries, not
numCores - 1 of them, and not the claimed [2, 5, 7] (the code records
each chunk's end index minus one, plus a leading 0 and the final
rowCount - 1). -/
theorem C4_counterexample :
    (get_df_bins [(0 : Int), 1, 2, 3, 4, 5, 6, 7, 8, 9] 4).2 = [0, 1, 4, 6, 9] ∧
    (get_df_bins [(0 : Int), 1, 2, 3, 4, 5, 6, 7, 8, 9] 4).2.length ≠ 4 - 1 ∧
    (get_df_bins [(0 : Int), 1, 2, 3, 4, 5, 6, 7, 8, 9] 4).2 ≠ [2, 5, 7] := by
  refine ⟨by decide, by decide, by decide⟩

/-- C4 (amended).  get_df_bins returns numCores + 1 boundary indices: a
leading 0 followed, for each core i, by ((i+1)*rowCount)//numCores - 1 by
truncated integer division; when rowCount ≥ numCores ≥ 1 the numCores
trailing entries are strictly increasing, every returned index lies in
[0, rowCount-1], and the final entry is rowCount - 1.  For numCores = 4
and rowCount = 10 the list is [0, 1, 4, 6, 9] (C4_counterexample). -/
theorem C4_index_bins (keys : List Int) (c : Nat) (hc : 1 ≤ c)
    (hrc : c ≤ keys.length) :
    (get_df_bins keys c).2.length = c + 1 ∧
    (get_df_bins keys c).2 = 0 :: (List.range c).map
      (fun i => ((((i + 1) * keys.length) / c : Nat) - (1 : Int))) ∧
    ((List.range c).map
      (fun i => ((((i + 1) * keys.length) / c : Nat) - (1 : Int)))).Chain' (· < ·) ∧
    (∀ x ∈ (get_df_bins keys c).2, 0 ≤ x ∧ x ≤ (keys.length : Int) - 1) ∧
    (get_df_bins keys c).2.getLast? = some ((keys.length : Int) - 1) := by
  have h := get_df_bins_idx_sound keys c hc hrc
  exact ⟨get_df_bins_idx_len keys c, h.1, h.2.1, h.2.2.1, h.2.2.2⟩

/-- C4 witness at 10 rows and 4 cores. -/
theorem C4_witness :
    (1 ≤ 4 ∧ 4 ≤ [(0 : Int), 1, 2, 3, 4, 5, 6, 7, 8, 9].length) ∧
    ((get_df_bins [(0 : Int), 1, 2, 3, 4, 5, 6, 7, 8, 9] 4).2.length = 4 + 1 ∧
      (get_df_bins [(0 : Int), 1, 2, 3, 4, 5, 6, 7, 8, 9] 4).2 =
        0 :: (List.range 4).map
          (fun i => ((((i + 1) *
            [(0 : Int), 1, 2, 3, 4, 5, 6, 7, 8, 9].length) / 4 : Nat) - (1 : Int))) ∧
      ((List.range 4).map
        (fun i => ((((i + 1) *
          [(0 : Int), 1, 2, 3, 4, 5, 6, 7, 8, 9].length) / 4 : Nat) -
            (1 : Int)))).Chain' (· < ·) ∧
      (∀ x ∈ (get_df_bins [(0 : Int), 1, 2, 3, 4, 5, 6, 7, 8, 9] 4).2,
        0 ≤ x ∧ x ≤ (([(0 : Int), 1, 2, 3, 4, 5, 6, 7, 8, 9].length : Int)) - 1) ∧
      (get_df_bins [(0 : Int), 1, 2, 3, 4, 5, 6, 7, 8, 9] 4).2.getLast? =
        some (([(0 : Int), 1, 2, 3, 4, 5, 6, 7, 8, 9].length : Int) - 1)) :=
  ⟨⟨by decide, by decide⟩,
    C4_index_bins [(0 : Int), 1, 2, 3, 4, 5, 6, 7, 8, 9] 4 (by decide) (by decide)⟩

/-- C5: the boundary indices returned by get_value_bins — whenever the
call returns at all, i.e. np.take's bound check passes — are
non-decreasing (quantiles of the same query values at non-decreasing
percentiles fed to a monotone sorted search) and never exceed
rowCount - 1. -/
theorem C5_value_bins (values keys : List Rat) (c : Nat) (hc : 1 ≤ c)
    (bins : List Rat) (idx : List Nat)
    (h : get_value_bins values keys c = some (bins, idx)) :
    idx.Chain' (· ≤ ·) ∧ ∀ i ∈ idx, i ≤ keys.length - 1 :=
  get_value_bins_sound values keys c hc bins idx h

theorem npQuantile_single_eval (p : Rat) : npQuantile [0] p = 0 := by
  simp [npQuantile]

theorem bisectLeft_single_eval : bisectLeft [(0 : Rat)] 0 0 1 = 0 := by
  rw [bisectLeft, if_pos (by norm_num), if_neg (by norm_num)]
  rw [bisectLeft, if_neg (by norm_num)]

theorem get_value_bins_eval : get_value_bins [0] [0] 1 = some ([0, 0], [0, 0]) := by
  simp only [get_value_bins, List.range_succ, List.range_zero, List.map_cons,
    List.map_nil, List.map_append, List.nil_append, npQuantile_single_eval,
    List.length_cons, List.length_nil]
  rw [bisectLeft_single_eval]
  norm_num

/-- C5 witness at a single query value 0, key column [0], one core. -/
theorem C5_witness :
    (1 ≤ 1 ∧ get_value_bins [0] [0] 1 = some ([0, 0], [0, 0])) ∧
    (([0, 0] : List Nat).Chain' (· ≤ ·) ∧
      ∀ i ∈ ([0, 0] : List Nat), i ≤ ([(0 : Rat)] : List Rat).length - 1) :=
  ⟨⟨by decide, get_value_bins_eval⟩,
    C5_value_bins [0] [0] 1 (by decide) [0, 0] [0, 0] get_value_bins_eval⟩

/-- C6 counterexample: propagating a context over a function node with a
literal child leaves the literal node's context unset (its setter is
`pass`), so not every descendant carries the assigned context. -/
theorem C6_counterexample :
    (nodes (set_exec_context (7 : Nat)
        (ENode.func (τ := Unit) 0 0 0 0 0 none 1 0 [ENode.lit 5 0 0 none 1 0]))).map
      execContextOf = [some 7, none] ∧
    (none : Option Nat) ≠ some 7 := by
  exact ⟨by decide, by decide⟩

/-- C6 (amended): after set_exec_context(T, ctx), every function and
reference node of T carries exactly ctx, but literal descendants are left
unchanged: the contexts carried by the literal nodes are exactly those
they carried before. -/
theorem C6_context_propagation {χ τ : Type} (ctx : χ) (n : ENode χ τ) :
    (∀ d ∈ nodes (set_exec_context ctx n),
      isLit d = false → execContextOf d = some ctx) ∧
      litCtxs (set_exec_context ctx n) = litCtxs n :=
  set_exec_context_sound ctx n

/-- C6 witness at a function root with a reference child and a literal
child. -/
theorem C6_witness :
    (∀ d ∈ nodes (set_exec_context (7 : Nat)
        (ENode.func 0 0 0 0 0 none 1 0
          [ENode.ref 1 () 0 0 none 1 0 none none, ENode.lit 5 0 0 none 1 0])),
      isLit d = false → execContextOf d = some 7) ∧
      litCtxs (set_exec_context (7 : Nat)
        (ENode.func 0 0 0 0 0 none 1 0
          [ENode.ref 1 () 0 0 none 1 0 none none, ENode.lit 5 0 0 none 1 0])) =
        litCtxs (ENode.func (τ := Unit) 0 0 0 0 0 none 1 0
          [ENode.ref 1 () 0 0 none 1 0 none none, ENode.lit 5 0 0 none 1 0]) :=
  C6_context_propagation 7 _

/-- C7: cloning for a partition yields a tree with identical structure —
node kinds, child counts and order, function identities, references,
literal values, reference types, axes and optimization flags — whose
reference nodes regenerate their backing table view through
gen_table_for_execution, and whose mutable per-partition state is
freshly constructed and thus disjoint from the original's: every node of
the clone starts with no execution context, cores 1 and subtree index 0
(the value embedding has no shared mutable cells, so the clone and the
original cannot affect one another). -/
theorem C7_clone_structure {χ τ : Type} (g : τ → τ) (n : ENode χ τ) :
    skeleton (gen_exec_subtree g n) = skeleton n ∧
      refTables (gen_exec_subtree g n) = (refTables n).map g ∧
      ∀ d ∈ nodes (gen_exec_subtree g n),
        execContextOf d = none ∧ coresOf d = 1 ∧ subtreeIdxOf d = 0 :=
  gen_exec_subtree_sound g n

/-- C7 witness: a function root over a reference and a literal, with
table views regenerated by Nat.succ. -/
theorem C7_witness :
    skeleton (gen_exec_subtree Nat.succ
        (ENode.func (χ := Nat) 0 0 0 0 0 (some 3) 2 5
          [ENode.ref 1 10 0 0 (some 3) 2 5 none none, ENode.lit 5 0 0 none 2 5])) =
      skeleton (ENode.func (χ := Nat) 0 0 0 0 0 (some 3) 2 5
        [ENode.ref 1 10 0 0 (some 3) 2 5 none none, ENode.lit 5 0 0 none 2 5]) ∧
    refTables (gen_exec_subtree Nat.succ
        (ENode.func (χ := Nat) 0 0 0 0 0 (some 3) 2 5
          [ENode.ref 1 10 0 0 (some 3) 2 5 none none,
            ENode.lit 5 0 0 none 2 5])) =
      (refTables (ENode.func (χ := Nat) 0 0 0 0 0 (some 3) 2 5
        [ENode.ref 1 10 0 0 (some 3) 2 5 none none,
          ENode.lit 5 0 0 none 2 5])).map Nat.succ ∧
    ∀ d ∈ nodes (gen_exec_subtree Nat.succ
        (ENode.func (χ := Nat) 0 0 0 0 0 (some 3) 2 5
          [ENode.ref 1 10 0 0 (some 3) 2 5 none none, ENode.lit 5 0 0 none 2 5])),
      execContextOf d = none ∧ coresOf d = 1 ∧ subtreeIdxOf d = 0 :=
  C7_clone_structure Nat.succ _

/-- C8: rewrite_plan returns the root unchanged when rewriting is
disabled; when enabled it applies the declared rule list in exactly its
declared order, each rule applied once to the root and once
independently to each immediate child of the rewritten root, the
rewritten children reattached under the new root (which, in this
functional tree embedding, is what fixes the children's parent
back-references): it coincides with the spec-side rewriteSpec. -/
theorem C8_rewrite_pipeline (enable : Bool) (rules : List (PNode → PNode))
    (root : PNode) :
    rewrite_plan enable rules root = rewriteSpec enable rules root ∧
    (enable = false → rewrite_plan enable rules root = root) := by
  constructor
  · cases enable with
    | false => rfl
    | true =>
      unfold rewrite_plan rewriteSpec
      rw [if_pos rfl, if_pos rfl]
      exact foldl_apply_one_rule_eq_go rules root
  · intro he
    subst he
    rfl

/-- C8 witness at a one-rule list and a two-node tree. -/
theorem C8_witness :
    rewrite_plan true [fun t => PNode.mk (t.payload + 1) t.children]
        (PNode.mk 0 [PNode.mk 3 []]) =
      rewriteSpec true [fun t => PNode.mk (t.payload + 1) t.children]
        (PNode.mk 0 [PNode.mk 3 []]) ∧
    (true = false → rewrite_plan true [fun t => PNode.mk (t.payload + 1) t.children]
        (PNode.mk 0 [PNode.mk 3 []]) = PNode.mk 0 [PNode.mk 3 []]) :=
  C8_rewrite_pipeline true [fun t => PNode.mk (t.payload + 1) t.children]
    (PNode.mk 0 [PNode.mk 3 []])

end Forms
